import Mathlib

/-!
# Verification of the go-git storage core (dotgit manager and packfile parser)

This file gives a shallow embedding of the two source files
`storage/filesystem/internal/dotgit/dotgit.go` and
`plumbing/format/packfile/parser.go`, together with theorems settling the
frozen claims about them.

Conventions of the embedding:
* machine integers become `Nat` (no overflow is relevant to the claims);
* the billy filesystem becomes a finite rose tree of named files carrying a
  content string and a modification time (`Nat`);
* fallible operations return `Except Err _` or pair the new state with
  `Option Err`; Go panics (nil dereference, slice out of range) are modelled
  as distinguished error values, since they likewise abort the operation;
* time is a logical clock that advances on writes.
-/

deriving instance DecidableEq for Except

namespace GitModel

/-! ## Hashes and hex encoding

`plumbing.Hash` is a 20-byte array.  `plumbing.NewHash` hex-decodes the
string, silently stopping at the first invalid pair (as Go's
`hex.DecodeString` does when its error is discarded), and copies at most 20
bytes into a zeroed array. -/

/-- A 20-byte object hash, as a list of byte values. -/
abbrev Hash := List Nat

/-- The all-zero hash, denoting "unset". -/
def zeroHash : Hash := List.replicate 20 0

/-- Value of one hex digit, accepting both cases (as Go's `encoding/hex`). -/
def hexVal (c : Char) : Option Nat :=
  if '0' ≤ c ∧ c ≤ '9' then some (c.toNat - '0'.toNat)
  else if 'a' ≤ c ∧ c ≤ 'f' then some (c.toNat - 'a'.toNat + 10)
  else if 'A' ≤ c ∧ c ≤ 'F' then some (c.toNat - 'A'.toNat + 10)
  else none

/-- Decode hex pairs, stopping at the first invalid or incomplete pair,
like `hex.Decode` with its error ignored. -/
def decodePairs : List Char → List Nat
  | a :: b :: rest =>
    match hexVal a, hexVal b with
    | some x, some y => (x * 16 + y) :: decodePairs rest
    | _, _ => []
  | _ => []

/-- `plumbing.NewHash`: hex-decode and copy at most 20 bytes into a zeroed
20-byte array. -/
def NewHash (s : String) : Hash :=
  let bs := (decodePairs s.data).take 20
  bs ++ List.replicate (20 - bs.length) 0

/-- Lowercase hex digit for a value below 16. -/
def hexDigit (n : Nat) : Char :=
  if n < 10 then Char.ofNat ('0'.toNat + n) else Char.ofNat ('a'.toNat + (n - 10))

/-- `Hash.String`: lowercase hex form of the 20 bytes. -/
def hashToHex (h : Hash) : String :=
  ⟨h.foldr (fun b acc => hexDigit (b / 16) :: hexDigit (b % 16) :: acc) []⟩

/-! ## References -/

/-- `plumbing.Reference`: either a direct (hash) reference or a symbolic
reference to another name. -/
inductive Reference where
  | hashRef (name : String) (hash : Hash)
  | symRef (name : String) (target : String)
deriving DecidableEq, Repr

/-- `Reference.Name`. -/
def Reference.name : Reference → String
  | .hashRef n _ => n
  | .symRef n _ => n

/-- `Reference.Hash` (zero for a symbolic reference). -/
def Reference.hash : Reference → Hash
  | .hashRef _ h => h
  | .symRef _ _ => zeroHash

/-- `plumbing.NewReferenceFromStrings`: a value starting with the literal
prefix "ref: " is a symbolic reference to the rest of the line; anything else
is a hash reference through `NewHash`.  Modelled from the spec: "a direct
reference is stored as the hex hash ...; a symbolic reference is stored as
`ref: <target>`.  The parser distinguishes by the `ref: ` prefix" (the
function itself lives outside the provided sources). -/
def NewReferenceFromStrings (name s : String) : Reference :=
  if s.data.take 5 = "ref: ".data then .symRef name ⟨s.data.drop 5⟩
  else .hashRef name (NewHash s)

/-- `Reference.String`, the packed-refs line form of a reference.  Modelled
from the spec grammar `entry := hex40 ' ' name` for direct references; a
symbolic reference serializes with its `ref: ` prefix before the name. -/
def Reference.toLine : Reference → String
  | .hashRef n h => hashToHex h ++ " " ++ n
  | .symRef n t => "ref: " ++ t ++ " " ++ n

/-! ## The filesystem tree -/

/-- A finite filesystem tree: files carry contents and an mtime, directories
carry a list of named children. -/
inductive FsTree where
  | file (content : String) (mtime : Nat)
  | dir (entries : List (String × FsTree))
deriving Repr

mutual

/-- Decidable equality for filesystem trees. -/
def FsTree.beq : FsTree → FsTree → Bool
  | .file c m, .file c' m' => c = c' ∧ m = m'
  | .dir es, .dir es' => FsTree.beqEntries es es'
  | _, _ => false

/-- Decidable equality for entry lists. -/
def FsTree.beqEntries : List (String × FsTree) → List (String × FsTree) → Bool
  | [], [] => true
  | (n, t) :: r, (n', t') :: r' => n = n' && FsTree.beq t t' && FsTree.beqEntries r r'
  | _, _ => false

end

mutual

theorem FsTree.beq_iff : ∀ a b : FsTree, FsTree.beq a b = true ↔ a = b
  | .file c m, .file c' m' => by
    simp [FsTree.beq, decide_eq_true_eq]
  | .file _ _, .dir _ => by simp [FsTree.beq]
  | .dir _, .file _ _ => by simp [FsTree.beq]
  | .dir es, .dir es' => by
    simp [FsTree.beq, FsTree.beqEntries_iff es es']

theorem FsTree.beqEntries_iff :
    ∀ a b : List (String × FsTree), FsTree.beqEntries a b = true ↔ a = b
  | [], [] => by simp [FsTree.beqEntries]
  | [], _ :: _ => by simp [FsTree.beqEntries]
  | _ :: _, [] => by simp [FsTree.beqEntries]
  | (n, t) :: r, (n', t') :: r' => by
    simp [FsTree.beqEntries, FsTree.beq_iff t t', FsTree.beqEntries_iff r r',
      Bool.and_assoc, and_assoc, decide_eq_true_eq]

end

instance : DecidableEq FsTree := fun a b =>
  decidable_of_iff (FsTree.beq a b = true) (FsTree.beq_iff a b)

/-- Look up an entry by name in a directory listing (first match). -/
def lookupEntry (es : List (String × FsTree)) (n : String) : Option FsTree :=
  match es with
  | [] => none
  | (m, t) :: rest => if m = n then some t else lookupEntry rest n

/-- Resolve a path inside a tree. -/
def FsTree.find? : FsTree → List String → Option FsTree
  | t, [] => some t
  | .file _ _, _ :: _ => none
  | .dir es, n :: p =>
    match lookupEntry es n with
    | some t => FsTree.find? t p
    | none => none

/-- Replace (or append) the entry named `n` by `t`. -/
def setEntry (es : List (String × FsTree)) (n : String) (t : FsTree) :
    List (String × FsTree) :=
  match es with
  | [] => [(n, t)]
  | (m, u) :: rest => if m = n then (m, t) :: rest else (m, u) :: setEntry rest n t

/-- Remove the entry named `n`. -/
def removeEntry (es : List (String × FsTree)) (n : String) :
    List (String × FsTree) :=
  match es with
  | [] => []
  | (m, u) :: rest => if m = n then rest else (m, u) :: removeEntry rest n

/-- Write a file at a path, creating intermediate directories, overwriting
whatever was there. -/
def FsTree.writeFile : FsTree → List String → String → Nat → FsTree
  | t, [], _, _ => t
  | t, [n], c, m =>
    match t with
    | .dir es => .dir (setEntry es n (.file c m))
    | .file _ _ => t
  | t, n :: p, c, m =>
    match t with
    | .dir es =>
      let sub := match lookupEntry es n with
        | some (.dir es') => FsTree.dir es'
        | _ => FsTree.dir []
      .dir (setEntry es n (FsTree.writeFile sub p c m))
    | .file _ _ => t

/-- Remove the node at a path (no-op when absent). -/
def FsTree.removePath : FsTree → List String → FsTree
  | t, [] => t
  | t, [n] =>
    match t with
    | .dir es => .dir (removeEntry es n)
    | .file _ _ => t
  | t, n :: p =>
    match t with
    | .dir es =>
      match lookupEntry es n with
      | some sub => .dir (setEntry es n (FsTree.removePath sub p))
      | none => t
    | .file _ _ => t

/-- Content of the file at a path, if there is a file there. -/
def FsTree.fileContent? (t : FsTree) (p : List String) : Option String :=
  match t.find? p with
  | some (.file c _) => some c
  | _ => none

/-! ## Strings: paths, lines, trimming -/

/-- Split a list on a separator character, with the semantics of Go's
`strings.Split` for a one-character separator. -/
def splitOnChar (c : Char) : List Char → List (List Char)
  | [] => [[]]
  | a :: rest =>
    if a = c then [] :: splitOnChar c rest
    else
      match splitOnChar c rest with
      | [] => [[a]]
      | g :: gs => (a :: g) :: gs

/-- Split a name on slashes, as the manager does before joining with the
filesystem separator. -/
def splitPath (s : String) : List String :=
  (splitOnChar '/' s.data).map fun l => ⟨l⟩

/-- Join path segments with slashes (`strings.Join(path, "/")`). -/
def joinPath : List String → String
  | [] => ""
  | [a] => a
  | a :: rest => a ++ "/" ++ joinPath rest

/-- Whether a character is ASCII whitespace (the cases of Go's
`strings.TrimSpace` relevant to reference files). -/
def isSpaceChar (c : Char) : Bool :=
  c = ' ' || c = '\t' || c = '\n' || c = '\r'

/-- `strings.TrimSpace` over the content of a reference file. -/
def trimSpace (s : String) : String :=
  ⟨(s.data.dropWhile isSpaceChar).reverse.dropWhile isSpaceChar |>.reverse⟩

/-- The lines a `bufio.Scanner` yields from a file content: split on
newlines, with no empty token after a trailing newline. -/
def scanLines (s : String) : List String :=
  let l := (splitOnChar '\n' s.data).map fun cs => String.mk cs
  match l.getLast? with
  | some "" => l.dropLast
  | _ => l

/-! ## The dotgit manager (`dotgit.go`) -/

/-- Errors surfaced by the manager.  `panicSliceBounds` models a Go runtime
panic from a slice expression with inverted bounds. -/
inductive Err where
  | ioErr
  | refChangedConcurrently
  | referenceNotFound
  | packedRefsBadFormat
  | packedRefsAlreadyInit
  | panicSliceBounds
deriving DecidableEq, Repr

/-- Path of the packed-refs file. -/
def packedRefsPath : String := "packed-refs"

/-- Name of the refs directory. -/
def refsName : String := "refs"

/-- Temp-file name stem for packed-refs replacement. -/
def tmpPackedRefsPre : String := "._packed-refs"

/-- The `DotGit` value: the repository tree, the in-memory packed-refs cache
with the timestamp it was built at, and a logical clock supplying `time.Now()`
and mtimes of writes. -/
structure DotGit where
  root : FsTree
  cachedPackedRefs : List (String × Reference)
  packedRefsLastMod : Nat
  clock : Nat
deriving DecidableEq, Repr

/-- Map lookup in the packed-refs cache. -/
def cacheGet (c : List (String × Reference)) (n : String) : Option Reference :=
  match c with
  | [] => none
  | (m, r) :: rest => if m = n then some r else cacheGet rest n

/-- Map assignment in the packed-refs cache (replace or append). -/
def cacheSet (c : List (String × Reference)) (n : String) (r : Reference) :
    List (String × Reference) :=
  match c with
  | [] => [(n, r)]
  | (m, u) :: rest => if m = n then (m, r) :: rest else (m, u) :: cacheSet rest n r

/-- One step of the packed-refs merge: skip seen names, else append the
reference and mark its name seen. -/
def seenFoldStep (a : List Reference × List String) (p : String × Reference) :
    List Reference × List String :=
  if a.2.contains p.1 then a else (a.1 ++ [p.2], a.2 ++ [p.1])

/-- The rebuilt cache `PackRefs` installs: a map entry per reference. -/
def cacheOfRefs (refs : List Reference) : List (String × Reference) :=
  refs.foldl (fun c r => cacheSet c r.name r) []

/-- Deleting the loose files of the given references. -/
def removeRefFiles (t : FsTree) (refs : List Reference) : FsTree :=
  refs.foldl (fun t r => t.removePath (splitPath r.name)) t

/-- `processLine`: empty lines, comments (`#`) and peeled-tag lines (`^`)
yield nothing; otherwise the line must split on single spaces into exactly
two tokens `hash name`, else the bad-format error. -/
def processLine (line : String) : Except Err (Option Reference) :=
  if line.data.length = 0 then .ok none
  else
    match line.data.head? with
    | some '#' => .ok none
    | some '^' => .ok none
    | _ =>
      match (splitOnChar ' ' line.data).map (fun cs => String.mk cs) with
      | [h, n] => .ok (some (NewReferenceFromStrings n h))
      | _ => .error .packedRefsBadFormat

/-- The scan loop of `syncPackedRefs`: fill a fresh cache from the lines,
stopping at the first malformed line (in which case the partially built cache
is kept and the timestamp is not advanced, as in the source). -/
def buildCacheLoop (lines : List String) (acc : List (String × Reference)) :
    List (String × Reference) × Option Err :=
  match lines with
  | [] => (acc, none)
  | l :: rest =>
    match processLine l with
    | .error e => (acc, some e)
    | .ok none => buildCacheLoop rest acc
    | .ok (some r) => buildCacheLoop rest (cacheSet acc r.name r)

/-- `syncPackedRefs`: stat packed-refs (missing file: keep the cache); rebuild
the cache from the file iff the cached timestamp is strictly before the file
mtime, and record that mtime on success. -/
def syncPackedRefs (st : DotGit) : DotGit × Option Err :=
  match st.root.find? [packedRefsPath] with
  | none => (st, none)
  | some (.dir _) => (st, none)
  | some (.file c m) =>
    if st.packedRefsLastMod < m then
      match buildCacheLoop (scanLines c) [] with
      | (cache, none) =>
        ({ st with cachedPackedRefs := cache, packedRefsLastMod := m }, none)
      | (cache, some e) => ({ st with cachedPackedRefs := cache }, some e)
    else (st, none)

/-- `packedRef`: sync, then look the name up in the cache. -/
def packedRef (st : DotGit) (name : String) : DotGit × Except Err Reference :=
  match syncPackedRefs st with
  | (st', some e) => (st', .error e)
  | (st', none) =>
    match cacheGet st'.cachedPackedRefs name with
    | some r => (st', .ok r)
    | none => (st', .error .referenceNotFound)

/-- `readReferenceFrom`: trim the file contents and parse them as a
reference with the given name. -/
def readReferenceFrom (content : String) (name : String) : Reference :=
  NewReferenceFromStrings name (trimSpace content)

/-- Whether every proper prefix of the path crosses only directories or
not-yet-existing nodes, i.e. whether `OpenFile` with `O_CREATE` can succeed. -/
def FsTree.pathOk (t : FsTree) : List String → Bool
  | [] => true
  | [_] =>
    match t with
    | .dir _ => true
    | .file _ _ => false
  | n :: p =>
    match t with
    | .file _ _ => false
    | .dir es =>
      match lookupEntry es n with
      | some sub => sub.pathOk p
      | none => true

/-- `checkReferenceAndTruncate` over an opened loose-ref file with contents
`fileC`: a no-op without an expected value; otherwise read the handle, fall
back to the packed-refs value when the parsed hash is zero, compare with the
expected hash, and only on a match truncate the file to zero bytes. -/
def checkReferenceAndTruncate (st : DotGit) (p : List String) (fileC : String)
    (old : Option Reference) : DotGit × Option Err :=
  match old with
  | none => (st, none)
  | some o =>
    let ref := readReferenceFrom fileC o.name
    let afterRead : DotGit × Except Err Reference :=
      if ref.hash = zeroHash then packedRef st o.name else (st, .ok ref)
    match afterRead with
    | (st', .error e) => (st', some e)
    | (st', .ok ref') =>
      if ref'.hash ≠ o.hash then (st', some .refChangedConcurrently)
      else
        ({ st' with
            root := st'.root.writeFile p "" st'.clock
            clock := st'.clock + 1 }, none)

/-- `SetRef`: serialize the new reference, open (creating, truncating only
when no expected value is given) the loose file, lock it, run the
check-and-truncate step, and write the new contents. -/
def SetRef (st : DotGit) (r : Reference) (old : Option Reference) :
    DotGit × Option Err :=
  let content := match r with
    | .symRef _ t => "ref: " ++ t ++ "\n"
    | .hashRef _ h => hashToHex h ++ "\n"
  let p := splitPath r.name
  if !st.root.pathOk p then (st, some .ioErr)
  else
    match st.root.find? p with
    | some (.dir _) => (st, some .ioErr)
    | node =>
      let preC : String := match node with
        | some (.file c _) => c
        | _ => ""
      -- O_CREATE always; O_TRUNC exactly when old is absent.
      let mustTouch : Bool := node.isNone || old.isNone
      let fileC : String := if old.isNone then "" else preC
      let st1 := if mustTouch then
          { st with root := st.root.writeFile p fileC st.clock, clock := st.clock + 1 }
        else st
      match checkReferenceAndTruncate st1 p fileC old with
      | (st2, some e) => (st2, some e)
      | (st2, none) =>
        ({ st2 with
            root := st2.root.writeFile p content st2.clock
            clock := st2.clock + 1 }, none)

/-- One step of the reference walk: read a loose file as a reference and add
it unless its name was already seen. -/
def addWalkRef (path : List String) (content : String)
    (acc : List Reference × List String) : List Reference × List String :=
  let name := joinPath path
  let ref := readReferenceFrom content name
  if acc.2.contains ref.name then acc else (acc.1 ++ [ref], acc.2 ++ [ref.name])

/-- `walkReferencesTree` over the listed entries: files are read as
references, directories are walked recursively in place. -/
def walkEntries : List (String × FsTree) → List String →
    List Reference × List String → List Reference × List String
  | [], _, acc => acc
  | (n, .file c _) :: rest, relPath, acc =>
    walkEntries rest relPath (addWalkRef (relPath ++ [n]) c acc)
  | (n, .dir es) :: rest, relPath, acc =>
    walkEntries rest relPath (walkEntries es (relPath ++ [n]) acc)

/-- `addRefsFromRefDir`: walk the `refs` directory.  A missing directory
contributes nothing; `refs` being a plain file fails the directory read. -/
def addRefsFromRefDir (st : DotGit) (acc : List Reference × List String) :
    Except Err (List Reference × List String) :=
  match st.root.find? [refsName] with
  | none => .ok acc
  | some (.file _ _) => .error .ioErr
  | some (.dir es) => .ok (walkEntries es [refsName] acc)

/-- `addRefsFromPackedRefs`: sync the cache and merge entries whose names
were not already seen. -/
def addRefsFromPackedRefs (st : DotGit) (acc : List Reference × List String) :
    DotGit × Except Err (List Reference × List String) :=
  match syncPackedRefs st with
  | (st', some e) => (st', .error e)
  | (st', none) => (st', .ok (st'.cachedPackedRefs.foldl seenFoldStep acc))

/-- `addRefFromHEAD`: read the HEAD file if present and append it (with no
seen-set check). -/
def addRefFromHEAD (st : DotGit) (refs : List Reference) :
    Except Err (List Reference) :=
  match st.root.find? ["HEAD"] with
  | none => .ok refs
  | some (.dir _) => .error .ioErr
  | some (.file c _) => .ok (refs ++ [readReferenceFrom c "HEAD"])

/-- `Refs`: loose references first, then unseen packed ones, then HEAD. -/
def Refs (st : DotGit) : DotGit × Except Err (List Reference) :=
  match addRefsFromRefDir st ([], []) with
  | .error e => (st, .error e)
  | .ok acc =>
    match addRefsFromPackedRefs st acc with
    | (st', .error e) => (st', .error e)
    | (st', .ok acc') =>
      match addRefFromHEAD st' acc'.1 with
      | .error e => (st', .error e)
      | .ok refs => (st', .ok refs)

/-- `CountLooseRefs`: the number of references the walk collects. -/
def CountLooseRefs (st : DotGit) : Except Err Nat :=
  match addRefsFromRefDir st ([], []) with
  | .error e => .error e
  | .ok acc => .ok acc.1.length

/-- Serialize references as packed-refs lines, one per reference. -/
def packedLines (refs : List Reference) : String :=
  String.join (refs.map (fun r => r.toLine ++ "\n"))

/-- `PackRefs`: lock (creating) packed-refs; collect loose refs (stop when
none), merge in packed ones; write everything to a temp file, rename it over
packed-refs, delete the loose files, and replace the cache stamped with the
current time. -/
def PackRefs (st : DotGit) : DotGit × Option Err :=
  match st.root.find? [packedRefsPath] with
  | some (.dir _) => (st, some .ioErr)
  | node =>
    let st0 := match node with
      | none =>
        { st with
          root := st.root.writeFile [packedRefsPath] "" st.clock
          clock := st.clock + 1 }
      | _ => st
    match addRefsFromRefDir st0 ([], []) with
    | .error e => (st0, some e)
    | .ok (looseRefs, seen) =>
      if looseRefs.length = 0 then (st0, none)
      else
        match addRefsFromPackedRefs st0 (looseRefs, seen) with
        | (st1, .error e) => (st1, some e)
        | (st1, .ok (refs, _)) =>
          let content := packedLines refs
          let tmpName := tmpPackedRefsPre ++ toString st1.clock
          let st2 := { st1 with
            root := st1.root.writeFile [tmpName] content st1.clock
            clock := st1.clock + 1 }
          -- rename: the temp node (keeping its mtime) replaces packed-refs
          let st3 := { st2 with root :=
            (st2.root.removePath [tmpName]).writeFile [packedRefsPath] content st1.clock }
          let st4 := { st3 with root := removeRefFiles st3.root looseRefs }
          let cache := cacheOfRefs refs
          ({ st4 with
              cachedPackedRefs := cache
              packedRefsLastMod := st4.clock
              clock := st4.clock + 1 }, none)

/-- `SetPackedRefs`: create a sibling lock file, `Create` packed-refs (which,
per the billy contract, truncates an existing file), check that the opened
file is empty, and write all entries.  The emptiness check reads the handle
just created, hence always sees empty contents. -/
def SetPackedRefs (st : DotGit) (refs : List Reference) : DotGit × Option Err :=
  match st.root.find? [tmpPackedRefsPre] with
  | some (.dir _) => (st, some .ioErr)
  | _ =>
    let st1 := { st with
      root := st.root.writeFile [tmpPackedRefsPre] "" st.clock
      clock := st.clock + 1 }
    match st1.root.find? [packedRefsPath] with
    | some (.dir _) => (st1, some .ioErr)
    | _ =>
      let st2 := { st1 with
        root := st1.root.writeFile [packedRefsPath] "" st1.clock
        clock := st1.clock + 1 }
      let buf := (st2.root.fileContent? [packedRefsPath]).getD ""
      if buf.length ≠ 0 then (st2, some .packedRefsAlreadyInit)
      else
        ({ st2 with
            root := st2.root.writeFile [packedRefsPath] (packedLines refs) st2.clock
            clock := st2.clock + 1 }, none)

/-- The loop of `ObjectPacks` over the pack directory listing: names ending
in `.pack` have the hash cut out as `n[5 : len n - 5]`, which panics when the
name is shorter than 10 characters. -/
def objectPacksLoop : List (String × FsTree) → List Hash → Except Err (List Hash)
  | [], acc => .ok acc
  | (n, _) :: rest, acc =>
    if n.data.drop (n.data.length - 5) = ".pack".data then
      if n.data.length < 10 then .error .panicSliceBounds
      else objectPacksLoop rest (acc ++ [NewHash ⟨(n.data.drop 5).take (n.data.length - 10)⟩])
    else objectPacksLoop rest acc

/-- `ObjectPacks`: list `objects/pack` (missing directory yields the empty
list) and collect the pack hashes. -/
def ObjectPacks (st : DotGit) : Except Err (List Hash) :=
  match st.root.find? ["objects", "pack"] with
  | none => .ok []
  | some (.file _ _) => .error .ioErr
  | some (.dir es) => objectPacksLoop es []

/-! ## The packfile parser (`parser.go`)

The scanner is abstracted by the pack itself: a list of raw object records
in stream order (each carrying its absolute offset, disk type, header
length, delta base designator, inflated payload bytes and CRC) plus the
trailing checksum.  Object hashes are modelled as an injective constructor
over the hashed triple, so two hashes are equal exactly when type, length
and bytes agree (the ideal-hash abstraction of SHA-1). -/

/-- The six object types; the last two are disk-only delta types. -/
inductive ObjectType where
  | commit | tree | blob | tag | ofsDelta | refDelta
deriving DecidableEq, Repr

/-- `ObjectType.IsDelta`. -/
def ObjectType.isDelta : ObjectType → Bool
  | .ofsDelta => true
  | .refDelta => true
  | _ => false

/-- A pack object hash: either the distinguished zero value or the content
hash of a `(type, length, bytes)` triple. -/
inductive PHash where
  | zero
  | content (t : ObjectType) (len : Nat) (data : List Nat)
deriving DecidableEq, Repr

/-- `getSHA1`: the canonical object hash over `(type, length, bytes)`.
Modelled from the spec: "compute its hash over `(type-tag, length, bytes)`"
(the hasher itself lives outside the provided sources). -/
def getSHA1 (t : ObjectType) (data : List Nat) : PHash :=
  .content t data.length data

/-- One raw object record of the pack stream, as the scanner reports it:
`ofsRef` is the absolute base offset (for an offset-delta) and `refBase` the
base hash (for a reference-delta); `data` is the inflated payload. -/
structure RawObject where
  offset : Nat
  objType : ObjectType
  length : Nat
  ofsRef : Nat
  refBase : PHash
  data : List Nat
  crc : Nat
deriving DecidableEq, Repr

/-- A pack: object records in stream order, plus the trailing checksum. -/
structure Pack where
  objects : List RawObject
  checksum : PHash
deriving DecidableEq, Repr

/-- `pack.findByOffset`: the record a seek to `off` re-reads. -/
def Pack.findByOffset (pk : Pack) (off : Nat) : Option RawObject :=
  pk.objects.find? (fun r => r.offset = off)

/-- `objectInfo`: the parser's working node for one object, with parent and
children as indices into the scan-ordered node list. -/
structure Node where
  offset : Nat
  length : Nat
  objType : ObjectType
  diskType : ObjectType
  crc32 : Nat
  parent : Option Nat
  children : List Nat
  sha1 : PHash
deriving DecidableEq, Repr

/-- `newDeltaObject` (and through it `newBaseObject` with no parent). -/
def newDeltaObject (offset length : Nat) (t : ObjectType) (parent : Option Nat) :
    Node :=
  { offset := offset, length := length, objType := t, diskType := t
    crc32 := 0, parent := parent, children := [], sha1 := .zero }

/-- Parser errors; `nilDeref` models the Go nil-pointer dereference panic,
`fuelOut` is the recursion guard of the embedding (never reached from the
states `Parse` constructs). -/
inductive PErr where
  | objectNotFound
  | refDeltaNotFound
  | deltaNotCached
  | notSeekableSource
  | invalidDelta
  | nilDeref
  | fuelOut
deriving DecidableEq, Repr

/-- Observer events, in emission order. -/
inductive Event where
  | onHeader (count : Nat)
  | onObjectHeader (t : ObjectType) (size : Nat) (pos : Nat)
  | onContent (h : PHash) (pos : Nat) (crc : Nat) (content : List Nat)
  | onFooter (h : PHash)
deriving DecidableEq, Repr

/-- Generic association-list lookup. -/
def alGet {α β : Type} [DecidableEq α] : List (α × β) → α → Option β
  | [], _ => none
  | (k, v) :: rest, a => if k = a then some v else alGet rest a

/-- Generic association-list assignment (replace or append). -/
def alSet {α β : Type} [DecidableEq α] : List (α × β) → α → β → List (α × β)
  | [], a, b => [(a, b)]
  | (k, v) :: rest, a, b =>
    if k = a then (k, b) :: rest else (k, v) :: alSet rest a b

/-- Generic association-list removal. -/
def alRemove {α β : Type} [DecidableEq α] : List (α × β) → α → List (α × β)
  | [], _ => []
  | (k, v) :: rest, a => if k = a then rest else (k, v) :: alRemove rest a

/-- A stored object in the optional storage backend: type, declared size and
content bytes.  `SetEncodedObject` keys it by the content hash. -/
structure StoredObj where
  objType : ObjectType
  size : Nat
  data : List Nat
deriving DecidableEq, Repr

/-- The storage backend as a hash-keyed map. -/
abbrev Storage := List (PHash × StoredObj)

/-- Reading an object back from storage: a buffer of the declared size is
filled by a single `Read`, so the bytes are truncated or zero-padded to
`size`. -/
def storedRead (o : StoredObj) : List Nat :=
  o.data.take o.size ++ List.replicate (o.size - o.data.length) 0

/-- The mutable parser state: scan-ordered nodes, the hash and offset maps,
pending reference-deltas, the retained delta bytes (non-seekable source),
the buffer cache, the optional storage, and the emitted events. -/
structure PState where
  nodes : List Node
  oiByHash : List (PHash × Nat)
  oiByOffset : List (Nat × Nat)
  pendingRefDeltas : List (PHash × List Nat)
  deltas : List (Nat × List Nat)
  cache : List (Nat × List Nat)
  storage : Option Storage
  events : List Event
deriving DecidableEq, Repr

/-- Node access (out-of-range access is irrelevant: indices come from the
scan). -/
def PState.node (s : PState) (i : Nat) : Node :=
  s.nodes.getD i (newDeltaObject 0 0 .blob none)

/-- In-place node update. -/
def PState.setNode (s : PState) (i : Nat) (f : Node → Node) : PState :=
  { s with nodes := s.nodes.set i (f (s.node i)) }

/-- Append a child index to a parent node. -/
def PState.addChild (s : PState) (p i : Nat) : PState :=
  s.setNode p (fun n => { n with children := n.children ++ [i] })

/-! ### The delta patch format

Modelled from the spec: "a variable-length encoding of the expected source
length, a variable-length encoding of the expected target length, followed
by a sequence of instructions.  An instruction with top bit set is a copy
from the base — the low bits signal which of four offset bytes and three
length bytes follow (a length of zero in a copy is interpreted as 0x10000).
An instruction with top bit clear and non-zero low bits is an insert — the
next n bytes are taken literally from the instruction stream.  A zero
instruction byte is reserved."  (`PatchDelta` lives outside the provided
sources.) -/

/-- Little-endian base-128 size header with continuation bit. -/
def decodeVarintAux : List Nat → Nat → Nat → Option (Nat × List Nat)
  | [], _, _ => none
  | b :: rest, shift, acc =>
    let acc' := acc + b % 128 * 2 ^ shift
    if b < 128 then some (acc', rest) else decodeVarintAux rest (shift + 7) acc'

/-- Read one optional argument byte of a copy instruction (0 when the flag
bit is clear). -/
def copyArg (flag : Bool) (l : List Nat) : Option (Nat × List Nat) :=
  if flag then
    match l with
    | [] => none
    | b :: r => some (b, r)
  else some (0, l)

/-- Run the delta instruction stream against the base (fuelled by the
remaining byte count, which bounds the step count). -/
def runDelta (base : List Nat) : Nat → List Nat → List Nat → Option (List Nat)
  | _, [], acc => some acc
  | 0, _ :: _, _ => none
  | fuel + 1, c :: rest, acc =>
    if 128 ≤ c then
      match copyArg (c.testBit 0) rest with
      | none => none
      | some (o0, r0) =>
        match copyArg (c.testBit 1) r0 with
        | none => none
        | some (o1, r1) =>
          match copyArg (c.testBit 2) r1 with
          | none => none
          | some (o2, r2) =>
            match copyArg (c.testBit 3) r2 with
            | none => none
            | some (o3, r3) =>
              match copyArg (c.testBit 4) r3 with
              | none => none
              | some (s0, r4) =>
                match copyArg (c.testBit 5) r4 with
                | none => none
                | some (s1, r5) =>
                  match copyArg (c.testBit 6) r5 with
                  | none => none
                  | some (s2, r6) =>
                    let off := o0 + o1 * 256 + o2 * 65536 + o3 * 16777216
                    let sz0 := s0 + s1 * 256 + s2 * 65536
                    let sz := if sz0 = 0 then 65536 else sz0
                    if off + sz ≤ base.length then
                      runDelta base fuel r6 (acc ++ ((base.drop off).take sz))
                    else none
    else if c = 0 then none
    else if c ≤ rest.length then
      runDelta base fuel (rest.drop c) (acc ++ rest.take c)
    else none

/-- `PatchDelta`: decode the expected source and target lengths, check the
base length, run the instructions, check the produced length. -/
def patchDelta (base delta : List Nat) : Except PErr (List Nat) :=
  match decodeVarintAux delta 0 0 with
  | none => .error .invalidDelta
  | some (srcSz, r1) =>
    if srcSz ≠ base.length then .error .invalidDelta
    else
      match decodeVarintAux r1 0 0 with
      | none => .error .invalidDelta
      | some (tgtSz, r2) =>
        match runDelta base r2.length r2 [] with
        | none => .error .invalidDelta
        | some out =>
          if out.length ≠ tgtSz then .error .invalidDelta else .ok out

/-! ### Phase 1: indexing -/

/-- One iteration of `indexObjects` for the next record `r` (the node index
is the current node count). -/
def indexStep (sk : Bool) (s : PState) (r : RawObject) : Except PErr PState :=
  let i := s.nodes.length
  let classified : Except PErr (PState × Node × Bool) :=
    match r.objType with
    | .ofsDelta =>
      match alGet s.oiByOffset r.ofsRef with
      | none => .error .objectNotFound
      | some pIdx =>
        .ok (s.addChild pIdx i, newDeltaObject r.offset r.length .ofsDelta (some pIdx),
          true)
    | .refDelta =>
      match alGet s.oiByHash r.refBase with
      | some pIdx =>
        .ok (s.addChild pIdx i, newDeltaObject r.offset r.length .refDelta (some pIdx),
          true)
      | none =>
        let pend := alSet s.pendingRefDeltas r.refBase
          (((alGet s.pendingRefDeltas r.refBase).getD []) ++ [i])
        .ok ({ s with pendingRefDeltas := pend },
          newDeltaObject r.offset r.length .refDelta none, true)
    | t => .ok (s, newDeltaObject r.offset r.length t none, false)
  match classified with
  | .error e => .error e
  | .ok (s, node, delta) =>
    let node := { node with crc32 := r.crc, length := r.length }
    let node :=
      if !delta then { node with sha1 := getSHA1 node.objType r.data } else node
    let s := if !delta then { s with oiByHash := alSet s.oiByHash node.sha1 i } else s
    let s :=
      if !delta then
        match s.storage with
        | some stg =>
          let stg' := alSet stg (getSHA1 r.objType r.data) ⟨r.objType, r.length, r.data⟩
          { s with storage := some stg' }
        | none => s
      else s
    let s := if delta && !sk then { s with deltas := alSet s.deltas r.offset r.data }
      else s
    .ok { s with oiByOffset := alSet s.oiByOffset r.offset i, nodes := s.nodes ++ [node] }

/-- The phase-1 loop, stopping at the first error. -/
def indexLoop (sk : Bool) : List RawObject → PState → PState × Option PErr
  | [], s => (s, none)
  | r :: rest, s =>
    match indexStep sk s r with
    | .error e => (s, some e)
    | .ok s' => indexLoop sk rest s'

/-! ### Phase 2: resolution -/

/-- `readData`: on a non-seekable source a delta's bytes come from the
retained map (else the delta-not-cached error); otherwise seek back and
re-scan the record at the node's offset (which a non-seekable scanner
refuses). -/
def readData (pk : Pack) (sk : Bool) (s : PState) (o : Node) :
    Except PErr (List Nat) :=
  if !sk && o.diskType.isDelta then
    match alGet s.deltas o.offset with
    | some d => .ok d
    | none => .error .deltaNotCached
  else if !sk then .error .notSeekableSource
  else
    match pk.findByOffset o.offset with
    | some r => .ok r.data
    | none => .error .notSeekableSource

/-- `resolveObject`: read the node's raw delta bytes, apply the patch
(`applyPatchBase`: on a still-zero hash inherit the parent's logical type,
compute the hash over the patched bytes and set the length), attach any
pending reference-deltas keyed by the newly known hash, and persist to the
storage when one is configured. -/
def resolveObject (pk : Pack) (sk : Bool) (s : PState) (i : Nat)
    (base : List Nat) : Except PErr (PState × List Nat) :=
  let o := s.node i
  if !o.diskType.isDelta then .ok (s, [])
  else
    match readData pk sk s o with
    | .error e => .error e
    | .ok data =>
      match patchDelta base data with
      | .error e => .error e
      | .ok patched =>
        let afterHash : Except PErr PState :=
          if o.sha1 = .zero then
            match o.parent with
            | none => .error .nilDeref
            | some p =>
              let pt := (s.node p).objType
              .ok (s.setNode i (fun n =>
                { n with objType := pt, sha1 := getSHA1 pt patched
                         length := patched.length }))
          else .ok s
        match afterHash with
        | .error e => .error e
        | .ok s =>
          let h := (s.node i).sha1
          let s :=
            match alGet s.pendingRefDeltas h with
            | some pend =>
              let s := pend.foldl
                (fun (s : PState) po =>
                  s.setNode po (fun n => { n with parent := some i })) s
              let s := s.setNode i (fun n => { n with children := n.children ++ pend })
              { s with pendingRefDeltas := alRemove s.pendingRefDeltas h }
            | none => s
          let s :=
            match s.storage with
            | some stg =>
              let stg' := alSet stg (getSHA1 (s.node i).objType patched)
                ⟨(s.node i).objType, (s.node i).length, patched⟩
              { s with storage := some stg' }
            | none => s
          .ok (s, patched)

/-- `get`: cache first; then, with storage and a non-delta logical type, the
storage backend (returned without caching); otherwise recursively
materialize a delta through its parent, or re-read a base from the scanner;
finally cache nodes that serve as delta bases.  A `none` parent reproduces
the Go nil-pointer dereference. -/
def getContent (pk : Pack) (sk : Bool) :
    Nat → PState → Option Nat → Except PErr (PState × List Nat)
  | 0, _, _ => .error .fuelOut
  | _ + 1, _, none => .error .nilDeref
  | fuel + 1, s, some i =>
    let o := s.node i
    match alGet s.cache o.offset with
    | some b => .ok (s, b)
    | none =>
      match s.storage, o.objType.isDelta with
      | some stg, false =>
        match alGet stg o.sha1 with
        | none => .error .objectNotFound
        | some e => .ok (s, storedRead e)
      | _, _ =>
        let materialized : Except PErr (PState × List Nat) :=
          if o.diskType.isDelta then
            match getContent pk sk fuel s o.parent with
            | .error e => .error e
            | .ok (s1, base) => resolveObject pk sk s1 i base
          else
            match readData pk sk s o with
            | .error e => .error e
            | .ok d => .ok (s, d)
        match materialized with
        | .error e => .error e
        | .ok (s2, data) =>
          if (s2.node i).children ≠ [] then
            .ok ({ s2 with cache := alSet s2.cache o.offset data }, data)
          else .ok (s2, data)

/-- Recursion allowance for `getContent`; on the states `Parse` builds the
recursion depth never exceeds three. -/
def fuelFor (pk : Pack) : Nat := pk.objects.length + 4

/-- Resolve the (snapshot of the) children of a resolved base in order. -/
def resolveKids (pk : Pack) (sk : Bool) (content : List Nat) :
    List Nat → PState → PState × Option PErr
  | [], s => (s, none)
  | k :: rest, s =>
    match resolveObject pk sk s k content with
    | .error e => (s, some e)
    | .ok (s', _) => resolveKids pk sk content rest s'

/-- One iteration of `resolveDeltas` for node `i`: materialize its content,
emit the header and content events, then resolve the children of a
(logically) non-delta node and drop its retained delta bytes on a
non-seekable source. -/
def resolveStep (pk : Pack) (sk : Bool) (s : PState) (i : Nat) :
    PState × Option PErr :=
  match getContent pk sk (fuelFor pk) s (some i) with
  | .error e => (s, some e)
  | .ok (s, content) =>
    let o := s.node i
    let s := { s with events := s.events ++
      [.onObjectHeader o.objType o.length o.offset,
       .onContent o.sha1 o.offset o.crc32 content] }
    if !o.objType.isDelta && o.children ≠ [] then
      match resolveKids pk sk content o.children s with
      | (s', some e) => (s', some e)
      | (s', none) =>
        if o.diskType.isDelta && !sk then
          ({ s' with deltas := alRemove s'.deltas o.offset }, none)
        else (s', none)
    else (s, none)

/-- The phase-2 loop over the node indices in scan order. -/
def resolveLoop (pk : Pack) (sk : Bool) : List Nat → PState → PState × Option PErr
  | [], s => (s, none)
  | i :: rest, s =>
    match resolveStep pk sk s i with
    | (s', some e) => (s', some e)
    | (s', none) => resolveLoop pk sk rest s'

/-- The initial parser state with the header event emitted. -/
def initialPState (pk : Pack) (stg : Option Storage) : PState :=
  { nodes := [], oiByHash := [], oiByOffset := [], pendingRefDeltas := []
    deltas := [], cache := [], storage := stg
    events := [.onHeader pk.objects.length] }

/-- `Parse`: construction check (a non-seekable source needs a storage),
phase 1, checksum, phase 2, the pending-reference-delta check, footer.
Returns the emitted event sequence together with the result. -/
def Parse (pk : Pack) (sk : Bool) (stg : Option Storage) :
    List Event × Except PErr PHash :=
  if !sk && stg.isNone then ([], .error .notSeekableSource)
  else
    let s0 := initialPState pk stg
    match indexLoop sk pk.objects s0 with
    | (s, some e) => (s.events, .error e)
    | (s1, none) =>
      match resolveLoop pk sk (List.range s1.nodes.length) s1 with
      | (s, some e) => (s.events, .error e)
      | (s2, none) =>
        if s2.pendingRefDeltas.length > 0 then (s2.events, .error .refDeltaNotFound)
        else (s2.events ++ [.onFooter pk.checksum], .ok pk.checksum)

/-! ## Derived notions the claims speak about -/

/-- The stored-value read that `SetRef`'s check performs for a name: the
loose file contents (empty when the file is absent or was just created),
falling back to the packed-refs entry when the parsed hash is zero. -/
def storedRefRead (st : DotGit) (name : String) : DotGit × Except Err Reference :=
  let fileC := (st.root.fileContent? (splitPath name)).getD ""
  let ref := readReferenceFrom fileC name
  if ref.hash = zeroHash then packedRef st name else (st, .ok ref)

/-- A packed-refs line the parser rejects: nonempty, no `#` or `^` marker,
and not exactly two space-separated tokens. -/
def lineBad (l : String) : Bool :=
  !(l.data.length = 0) && !(l.data.head? = some '#') && !(l.data.head? = some '^')
    && !((splitOnChar ' ' l.data).length = 2)

/-- The loose references the walk collects, with their seen-set. -/
def looseRefsOf (st : DotGit) : Except Err (List Reference × List String) :=
  addRefsFromRefDir st ([], [])

/-- The result of a packed-refs lookup as a function of the three inputs it
depends on: the packed-refs node, the cache, and the cached timestamp. -/
def packedRefSpec (fnd : Option FsTree) (cache : List (String × Reference))
    (lastMod : Nat) (n : String) : Except Err Reference :=
  let fromCache := fun (c : List (String × Reference)) =>
    match cacheGet c n with
    | some r => Except.ok r
    | none => Except.error Err.referenceNotFound
  match fnd with
  | some (.file c m) =>
    if lastMod < m then
      match buildCacheLoop (scanLines c) [] with
      | (cache', none) => fromCache cache'
      | (_, some e) => .error e
    else fromCache cache
  | _ => fromCache cache

/-- Whether an optional tree node is a plain file. -/
def isFileNode : Option FsTree → Bool
  | some (.file _ _) => true
  | _ => false

/-- Whether an optional tree node is a directory. -/
def isDirNode : Option FsTree → Bool
  | some (.dir _) => true
  | _ => false

/-- A name is a good path component: nonempty and without slashes. -/
def goodName (n : String) : Bool := !(n.data = []) && !(n.data.contains '/')

/-- The files of an entry listing, with their tree paths and contents, in
walk order. -/
def filesOf : List (String × FsTree) → List String → List (List String × String)
  | [], _ => []
  | (n, .file c _) :: rest, rel => (rel ++ [n], c) :: filesOf rest rel
  | (n, .dir es) :: rest, rel => filesOf es (rel ++ [n]) ++ filesOf rest rel

/-- The reference a walked file yields. -/
def fileRef (pc : List String × String) : Reference :=
  readReferenceFrom pc.2 (joinPath pc.1)

/-- Folding the walked files into the accumulator, in order. -/
def addRefsPure : List (List String × String) →
    List Reference × List String → List Reference × List String
  | [], acc => acc
  | pc :: rest, acc => addRefsPure rest (addWalkRef pc.1 pc.2 acc)

/-- The tail of a `Refs` run after the loose/packed merge: append the HEAD
file's reference if the file exists, fail if HEAD is a directory. -/
def assembleResult (refsl : List Reference) (headNode : Option FsTree) :
    Except Err (List Reference) :=
  match headNode with
  | none => .ok refsl
  | some (.dir _) => .error .ioErr
  | some (.file c _) => .ok (refsl ++ [readReferenceFrom c "HEAD"])

/-- The packed entries `addRefsFromPackedRefs` appends: cache entries whose
names are not in the seen-set. -/
def packedAdds (cache : List (String × Reference)) (seen : List String) :
    List Reference :=
  (cache.filter (fun p => !seen.contains p.1)).map Prod.snd

mutual

/-- Well-formed tree: every directory has distinct, good entry names. -/
def FsTree.wfB : FsTree → Bool
  | .file _ _ => true
  | .dir es => FsTree.wfEntriesB es

/-- Well-formed entry list. -/
def FsTree.wfEntriesB : List (String × FsTree) → Bool
  | [] => true
  | (n, t) :: rest =>
    goodName n && FsTree.wfB t && FsTree.wfEntriesB rest
      && !((rest.map Prod.fst).contains n)

end

/-- A manager state the claims range over: a well-formed tree, and a cache
coherent with the manager's own history (no entries survive a missing
packed-refs file, names are distinct, and every entry is keyed by the name
of the reference it holds, as `refs[ref.Name()] = ref` guarantees). -/
def WfDotGit (st : DotGit) : Prop :=
  st.root.wfB = true ∧
  (st.root.find? [packedRefsPath] = none → st.cachedPackedRefs = []) ∧
  (st.cachedPackedRefs.map Prod.fst).Nodup ∧
  ∀ p ∈ st.cachedPackedRefs, p.1 = p.2.name

/-- A well-formed pack: record offsets strictly increase in stream order and
each non-delta record's header length matches its payload length. -/
def Pack.wellFormed (pk : Pack) : Prop :=
  pk.objects.Pairwise (fun a b => a.offset < b.offset) ∧
  ∀ r ∈ pk.objects, r.objType.isDelta = false → r.length = r.data.length

/-- A content-addressed storage: every entry is keyed by the hash of its
content and declares its true size. -/
def StorageSound (stg : Storage) : Prop :=
  ∀ p ∈ stg, p.1 = getSHA1 p.2.objType p.2.data ∧ p.2.size = p.2.data.length

/-- The phase-2 event segment matching the pack from object `k` on: header
and content event pairs in scan order, one pair per object, each content
hash being the canonical hash of the emitted type and bytes. -/
def GoodPairs (pk : Pack) : Nat → List Event → Prop
  | k, [] => k = pk.objects.length
  | k, .onObjectHeader t _ off :: .onContent h off2 _ d :: rest =>
    off2 = off ∧ (pk.objects.get? k).map RawObject.offset = some off ∧
      h = getSHA1 t d ∧ GoodPairs pk (k + 1) rest
  | _, _ => False

/-! ## Concrete states and packs used by the theorems -/

/-- Forty `a`s: a valid lowercase hex hash string. -/
def hexA : String := ⟨List.replicate 40 'a'⟩

/-- Forty `b`s. -/
def hexB : String := ⟨List.replicate 40 'b'⟩

/-- Forty `c`s. -/
def hexC : String := ⟨List.replicate 40 'c'⟩

/-- C1 witness state: a loose `refs/heads/x` holding hash `aa…a`. -/
def stC1w : DotGit :=
  { root := .dir [("refs", .dir [("heads", .dir [("x", .file (hexA ++ "\n") 1)])])]
    cachedPackedRefs := []
    packedRefsLastMod := 0
    clock := 10 }

/-- C3 counterexample state: HEAD exists both as the HEAD file (hash `bb…b`)
and as a packed-refs entry (hash `aa…a`). -/
def stC3c : DotGit :=
  { root := .dir [("HEAD", .file (hexB ++ "\n") 1),
                  ("packed-refs", .file (hexA ++ " HEAD\n") 5)]
    cachedPackedRefs := []
    packedRefsLastMod := 0
    clock := 10 }

/-- C4 witness state: two loose refs and one packed ref. -/
def stC4w : DotGit :=
  { root := .dir [("HEAD", .file ("ref: refs/heads/a\n") 1),
                  ("refs", .dir [("heads", .dir [("a", .file (hexA ++ "\n") 2),
                                                 ("b", .file (hexB ++ "\n") 3)])]),
                  ("packed-refs", .file (hexC ++ " refs/tags/v1\n") 4)]
    cachedPackedRefs := [("refs/tags/v1", .hashRef "refs/tags/v1" (NewHash hexC))]
    packedRefsLastMod := 4
    clock := 10 }

/-- The refs-directory listing of the C3 witness state. -/
def esC3w : List (String × FsTree) :=
  [("heads", .dir [("x", .file (hexB ++ "\n") 2)])]

/-- C3 witness state: a loose and a packed `refs/heads/x`, a packed
`refs/heads/p`, and a symbolic `HEAD`, with the cache in sync. -/
def stC3w : DotGit :=
  { root := .dir [("HEAD", .file "ref: refs/heads/x\n" 1),
                  ("packed-refs",
                   .file (hexA ++ " refs/heads/x\n" ++ hexA ++ " refs/heads/p\n") 5),
                  ("refs", .dir esC3w)]
    cachedPackedRefs :=
      [("refs/heads/x", .hashRef "refs/heads/x" (NewHash hexA)),
       ("refs/heads/p", .hashRef "refs/heads/p" (NewHash hexA))]
    packedRefsLastMod := 5
    clock := 10 }

/-- The reference list `Refs` returns on `stC3w`. -/
def refsC3w : List Reference :=
  [.hashRef "refs/heads/x" (NewHash hexB),
   .hashRef "refs/heads/p" (NewHash hexA),
   .symRef "HEAD" "refs/heads/x"]

/-- The refs-directory listing of the C4 witness state `stC4w`. -/
def esC4w : List (String × FsTree) :=
  [("heads", .dir [("a", .file (hexA ++ "\n") 2), ("b", .file (hexB ++ "\n") 3)])]

/-- C7 failing state: a packed-refs file that already contains an entry. -/
def stC7c : DotGit :=
  { root := .dir [("packed-refs", .file (hexA ++ " refs/heads/old\n") 3)]
    cachedPackedRefs := []
    packedRefsLastMod := 0
    clock := 10 }

/-- The references passed to `SetPackedRefs` in the C7 evaluation. -/
def refsC7 : List Reference := [.hashRef "refs/heads/a" (NewHash hexB)]

/-- C8 counterexample state: packed-refs holds the two-token line
`notahash refs/heads/x`. -/
def stC8c : DotGit :=
  { root := .dir [("packed-refs", .file "notahash refs/heads/x\n" 5)]
    cachedPackedRefs := []
    packedRefsLastMod := 0
    clock := 10 }

/-- C8 witness state: packed-refs holds a three-token line. -/
def stC8w : DotGit :=
  { root := .dir [("packed-refs", .file "one two three\n" 5)]
    cachedPackedRefs := []
    packedRefsLastMod := 0
    clock := 10 }

/-- C9 witness state: file mtime 5 against cached timestamp 2, with a stale
cache entry that the refresh replaces. -/
def stC9w : DotGit :=
  { root := .dir [("packed-refs", .file (hexA ++ " refs/heads/p\n") 5)]
    cachedPackedRefs := [("stale", .hashRef "stale" (NewHash hexB))]
    packedRefsLastMod := 2
    clock := 10 }

/-- C9 witness state with the file mtime equal to the cached timestamp. -/
def stC9e : DotGit :=
  { root := .dir [("packed-refs", .file (hexA ++ " refs/heads/p\n") 5)]
    cachedPackedRefs := [("stale", .hashRef "stale" (NewHash hexB))]
    packedRefsLastMod := 5
    clock := 10 }

/-- C10 counterexample state: `objects/pack` contains an entry named exactly
`.pack`. -/
def stC10c : DotGit :=
  { root := .dir [("objects", .dir [("pack", .dir [(".pack", .file "" 0)])])]
    cachedPackedRefs := []
    packedRefsLastMod := 0
    clock := 0 }

/-- C10 witness state: a regular pack name and an unrelated file. -/
def stC10w : DotGit :=
  { root := .dir [("objects", .dir [("pack",
      .dir [("pack-" ++ hexA ++ ".pack", .file "" 0), ("junk.txt", .file "" 0)])])]
    cachedPackedRefs := []
    packedRefsLastMod := 0
    clock := 0 }

/-- C5 failing pack: a single reference-delta whose base hash occurs nowhere
in the pack. -/
def pkC5x : Pack :=
  { objects := [{ offset := 12, objType := .refDelta, length := 7, ofsRef := 0,
                  refBase := getSHA1 .blob [1], data := [3, 4, 145, 0, 3, 1, 9],
                  crc := 7 }]
    checksum := .zero }

/-- Witness pack: a base blob `[1,2,3]` and an offset-delta producing
`[1,2,3,9]` (copy 3 bytes, insert one literal byte). -/
def pkW : Pack :=
  { objects :=
      [{ offset := 12, objType := .blob, length := 3, ofsRef := 0,
         refBase := .zero, data := [1, 2, 3], crc := 11 },
       { offset := 40, objType := .ofsDelta, length := 7, ofsRef := 12,
         refBase := .zero, data := [3, 4, 145, 0, 3, 1, 9], crc := 22 }]
    checksum := .content .blob 0 [] }

/-- C6 counterexample pack: the base's header declares length 2 but its
payload is 3 bytes long, so the storage readback truncates it. -/
def pkC6c : Pack :=
  { objects :=
      [{ offset := 12, objType := .blob, length := 2, ofsRef := 0,
         refBase := .zero, data := [1, 2, 3], crc := 11 },
       { offset := 40, objType := .ofsDelta, length := 7, ofsRef := 12,
         refBase := .zero, data := [3, 4, 145, 0, 3, 1, 9], crc := 22 }]
    checksum := .zero }

/-! ## Theorems -/

/-! ### Claim C10: `ObjectPacks` bounds -/

/-- C10 counterexample: a directory entry named exactly `.pack` makes the
slice `n[5 : len n - 5]` panic (low bound 5 above high bound 0), so
`ObjectPacks` is not total over every listing, contrary to the claim. -/
theorem objectPacks_panics_on_short_name :
    ObjectPacks stC10c = .error .panicSliceBounds := by decide

/-- The loop of `ObjectPacks` succeeds as long as `.pack` names are at least
10 characters long. -/
theorem objectPacksLoop_ok (es : List (String × FsTree)) :
    ∀ acc : List Hash,
      (∀ p ∈ es, p.1.data.drop (p.1.data.length - 5) = ".pack".data →
        10 ≤ p.1.data.length) →
      ∃ l, objectPacksLoop es acc = .ok l := by
  induction es with
  | nil => intro acc _; exact ⟨acc, rfl⟩
  | cons hd tl ih =>
    intro acc h
    obtain ⟨n, t⟩ := hd
    unfold objectPacksLoop
    by_cases hsuf : n.data.drop (n.data.length - 5) = ".pack".data
    · have hlen : 10 ≤ n.data.length := h (n, t) (List.mem_cons_self _ _) hsuf
      rw [if_pos hsuf, if_neg (by omega)]
      exact ih _ (fun p hp => h p (List.mem_cons_of_mem _ hp))
    · rw [if_neg hsuf]
      exact ih _ (fun p hp => h p (List.mem_cons_of_mem _ hp))

/-- C10 amended: `ObjectPacks` returns without a bounds violation provided
every `.pack`-suffixed entry name in the pack directory has at least 10
characters (as every `pack-<hex>.pack` name does); a shorter name such as
`.pack` hits the inverted slice bounds. -/
theorem objectPacks_total_on_long_names (st : DotGit)
    (es : List (String × FsTree))
    (hdir : st.root.find? ["objects", "pack"] = some (.dir es))
    (h : ∀ p ∈ es, p.1.data.drop (p.1.data.length - 5) = ".pack".data →
      10 ≤ p.1.data.length) :
    ∃ l, ObjectPacks st = .ok l := by
  unfold ObjectPacks
  rw [hdir]
  exact objectPacksLoop_ok es [] h

/-- C10 amended, witness: the well-named listing is processed successfully. -/
theorem objectPacks_total_witness : ∃ l, ObjectPacks stC10w = .ok l :=
  objectPacks_total_on_long_names stC10w
    [("pack-" ++ hexA ++ ".pack", .file "" 0), ("junk.txt", .file "" 0)]
    (by decide) (by decide)

/-! ### Claim C7: `SetPackedRefs` on a non-empty prior file -/

/-- C7 evaluation at the failing input: with a packed-refs file already
holding an entry, `SetPackedRefs` succeeds (returns no error) and replaces
the old contents with the new entries — the `Create` call truncates the file
before the emptiness check reads it, so the declared already-initialized
failure never fires. -/
theorem setPackedRefs_overwrites_nonempty :
    (SetPackedRefs stC7c refsC7).2 = none ∧
    (SetPackedRefs stC7c refsC7).1.root.fileContent? [packedRefsPath] =
      some (hexB ++ " refs/heads/a\n") := by decide

/-! ### Claim C5: pending reference-deltas at the end of Phase 2 -/

/-- C5 evaluation at the failing input: for a pack whose only object is a
reference-delta over an absent base hash, Phase 2 dereferences the nil
parent of the pending node (a Go panic, modelled as `nilDeref`) — with or
without a storage — before the pending-reference-delta check can run, so
`Parse` does not return the missing-reference-delta error. -/
theorem parse_missing_refdelta_base_panics :
    Parse pkC5x true none = ([.onHeader 1], .error .nilDeref) ∧
    Parse pkC5x false (some []) = ([.onHeader 1], .error .nilDeref) ∧
    PErr.nilDeref ≠ PErr.refDeltaNotFound := by decide

/-! ### Claim C3, counterexample: HEAD can be listed twice -/

/-- C3 counterexample: with HEAD present both as the HEAD file and as a
packed-refs entry, `Refs` returns two entries named HEAD (the packed one and
the loose one), so reference names are not unique in its output. -/
theorem refs_duplicates_head :
    ((Refs stC3c).2.map fun l =>
      l.countP fun rf => rf.name == "HEAD") = .ok 2 := by decide

/-! ### Claim C8: malformed packed-refs lines -/

/-- C8 counterexample: the two-token line `notahash refs/heads/x` is
accepted — `Refs` succeeds and returns the entry with the (zero) hash that
`NewHash` makes of the invalid hex, instead of failing with the bad-format
error. -/
theorem refs_accepts_notahash_line :
    (Refs stC8c).2 = .ok [.hashRef "refs/heads/x" zeroHash] := by decide

/-- `processLine` rejects exactly the bad lines, with the bad-format
error. -/
theorem processLine_bad (l : String) (h : lineBad l = true) :
    processLine l = .error .packedRefsBadFormat := by
  unfold lineBad at h
  simp only [Bool.and_eq_true, Bool.not_eq_true', decide_eq_false_iff_not] at h
  obtain ⟨⟨⟨h1, h2⟩, h3⟩, h4⟩ := h
  unfold processLine
  rw [if_neg h1]
  split
  · exact absurd (by assumption) h2
  · exact absurd (by assumption) h3
  · split
    · rename_i hsplit
      exfalso
      apply h4
      have := congrArg List.length hsplit
      simpa using this
    · rfl

/-- Any error of `processLine` is the bad-format error. -/
theorem processLine_error_eq (l : String) (e : Err)
    (h : processLine l = .error e) : e = .packedRefsBadFormat := by
  unfold processLine at h
  split at h
  · simp at h
  · split at h
    · simp at h
    · simp at h
    · split at h
      · simp at h
      · simp only [Except.error.injEq] at h
        exact h.symm

/-- If some line is bad, the cache-building loop stops with the bad-format
error. -/
theorem buildCacheLoop_bad (lines : List String) :
    ∀ acc, (∃ l ∈ lines, lineBad l = true) →
      ∃ cache, buildCacheLoop lines acc = (cache, some .packedRefsBadFormat) := by
  induction lines with
  | nil => simp
  | cons hd tl ih =>
    intro acc hex
    obtain ⟨l, hmem, hbad⟩ := hex
    unfold buildCacheLoop
    rcases List.mem_cons.mp hmem with rfl | hmem
    · rw [processLine_bad _ hbad]
      exact ⟨acc, rfl⟩
    · cases hpl : processLine hd with
      | error e =>
        have he : e = .packedRefsBadFormat := processLine_error_eq hd e hpl
        subst he
        exact ⟨acc, rfl⟩
      | ok o =>
        cases o with
        | none => exact ih acc ⟨l, hmem, hbad⟩
        | some r => exact ih _ ⟨l, hmem, hbad⟩

/-- C8 amended: when the packed-refs file has to be re-read (its mtime beats
the cached timestamp) and contains a line that is nonempty, not a comment or
peeled-tag marker, and does not consist of exactly two space-separated
tokens, `Refs` fails with the bad-format error (the reference walk not
failing on its own).  Hash validity of a two-token line is never checked. -/
theorem refs_fails_on_malformed_packed_line (st : DotGit) (c : String) (m : Nat)
    (hfile : st.root.find? [packedRefsPath] = some (.file c m))
    (hm : st.packedRefsLastMod < m)
    (hrefs : isFileNode (st.root.find? [refsName]) = false)
    (hbad : ∃ l ∈ scanLines c, lineBad l = true) :
    (Refs st).2 = .error .packedRefsBadFormat := by
  obtain ⟨cache, hloop⟩ := buildCacheLoop_bad (scanLines c) [] hbad
  have hsync : syncPackedRefs st =
      ({ st with cachedPackedRefs := cache }, some .packedRefsBadFormat) := by
    unfold syncPackedRefs
    rw [hfile]
    dsimp only
    rw [if_pos hm, hloop]
  have hwalk : ∃ acc, addRefsFromRefDir st ([], []) = .ok acc := by
    unfold addRefsFromRefDir
    cases hf : st.root.find? [refsName] with
    | none => exact ⟨_, rfl⟩
    | some t =>
      cases t with
      | file cnt mt => rw [hf] at hrefs; simp [isFileNode] at hrefs
      | dir es => exact ⟨_, rfl⟩
  obtain ⟨acc, hacc⟩ := hwalk
  unfold Refs
  rw [hacc]
  unfold addRefsFromPackedRefs
  rw [hsync]

/-- C8 amended, witness: the three-token line `one two three` does make
`Refs` fail with the bad-format error. -/
theorem refs_fails_on_malformed_witness :
    (Refs stC8w).2 = .error .packedRefsBadFormat :=
  refs_fails_on_malformed_packed_line stC8w "one two three\n" 5 (by decide)
    (by decide) (by decide) (by decide)

/-! ### Claim C9: cache refresh policy -/

/-- C9: with the packed-refs file present carrying mtime `m`, the sync is a
no-op (state returned unchanged) unless the recorded timestamp is strictly
before `m`; when it is, the cache is rebuilt to exactly the parse of the
file's lines, and `m` is recorded on success. -/
theorem syncPackedRefs_fresh_iff (st : DotGit) (c : String) (m : Nat)
    (hfile : st.root.find? [packedRefsPath] = some (.file c m)) :
    (¬ st.packedRefsLastMod < m → syncPackedRefs st = (st, none)) ∧
    (st.packedRefsLastMod < m →
      (syncPackedRefs st).1.cachedPackedRefs = (buildCacheLoop (scanLines c) []).1 ∧
      ((buildCacheLoop (scanLines c) []).2 = none →
        (syncPackedRefs st).1.packedRefsLastMod = m)) := by
  unfold syncPackedRefs
  rw [hfile]
  dsimp only
  constructor
  · intro h
    rw [if_neg h]
  · intro h
    rw [if_pos h]
    rcases hb : buildCacheLoop (scanLines c) [] with ⟨cache, e⟩
    cases e with
    | none => simp [hb]
    | some e => simp [hb]

/-- C9 witness: at timestamp 2 against mtime 5 the cache is rebuilt (and the
stale entry discarded, the mtime recorded); at timestamp 5 against mtime 5
the state is returned unchanged. -/
theorem syncPackedRefs_fresh_iff_witness :
    syncPackedRefs stC9e = (stC9e, none) ∧
    (syncPackedRefs stC9w).1.cachedPackedRefs =
      [("refs/heads/p", .hashRef "refs/heads/p" (NewHash hexA))] ∧
    (syncPackedRefs stC9w).1.packedRefsLastMod = 5 := by
  refine ⟨?_, ?_, ?_⟩
  · exact (syncPackedRefs_fresh_iff stC9e (hexA ++ " refs/heads/p\n") 5
      (by decide)).1 (by decide)
  · have h := (syncPackedRefs_fresh_iff stC9w (hexA ++ " refs/heads/p\n") 5
      (by decide)).2 (by decide)
    rw [h.1]
    decide
  · have h := (syncPackedRefs_fresh_iff stC9w (hexA ++ " refs/heads/p\n") 5
      (by decide)).2 (by decide)
    exact h.2 (by decide)

/-! ### Claim C1: the SetRef compare-and-set -/

/-- `setEntry` hits the targeted name. -/
theorem lookupEntry_setEntry_self (es : List (String × FsTree)) (n : String)
    (t : FsTree) : lookupEntry (setEntry es n t) n = some t := by
  induction es with
  | nil => simp [setEntry, lookupEntry]
  | cons hd tl ih =>
    obtain ⟨m, u⟩ := hd
    unfold setEntry
    by_cases h : m = n
    · rw [if_pos h]
      unfold lookupEntry
      rw [if_pos h]
    · rw [if_neg h]
      unfold lookupEntry
      rw [if_neg h]
      exact ih

/-- `setEntry` leaves other names alone. -/
theorem lookupEntry_setEntry_ne (es : List (String × FsTree)) (n : String)
    (t : FsTree) (q : String) (h : n ≠ q) :
    lookupEntry (setEntry es n t) q = lookupEntry es q := by
  induction es with
  | nil => simp [setEntry, lookupEntry, h]
  | cons hd tl ih =>
    obtain ⟨m, u⟩ := hd
    unfold setEntry
    by_cases hm : m = n
    · subst hm
      rw [if_pos rfl]
      unfold lookupEntry
      rw [if_neg h, if_neg h]
    · rw [if_neg hm]
      unfold lookupEntry
      by_cases hq : m = q
      · rw [if_pos hq, if_pos hq]
      · rw [if_neg hq, if_neg hq]
        exact ih

/-- A write whose path starts off a top-level name `q` does not change the
node at `[q]`. -/
theorem find?_writeFile_top_ne (t : FsTree) (p : List String) (c : String)
    (mt : Nat) (q : String) (hq : p.head? ≠ some q) :
    (t.writeFile p c mt).find? [q] = t.find? [q] := by
  match p with
  | [] => rfl
  | [n] =>
    have hn : n ≠ q := fun h => hq (by simp [h])
    cases t with
    | file cc mm => rfl
    | dir es =>
      show (FsTree.dir (setEntry es n (.file c mt))).find? [q] = _
      unfold FsTree.find?
      rw [lookupEntry_setEntry_ne es n _ q hn]
  | n :: n2 :: p' =>
    have hn : n ≠ q := fun h => hq (by simp [h])
    cases t with
    | file cc mm => rfl
    | dir es =>
      show (FsTree.dir (setEntry es n _)).find? [q] = _
      unfold FsTree.find?
      rw [lookupEntry_setEntry_ne es n _ q hn]

/-- The empty directory admits any write path. -/
theorem pathOk_dirnil (p : List String) : (FsTree.dir []).pathOk p = true := by
  match p with
  | [] => rfl
  | [n] => rfl
  | n :: n2 :: p' => rfl

/-- `splitPath` never returns the empty list. -/
theorem splitOnChar_ne_nil (c : Char) (l : List Char) : splitOnChar c l ≠ [] := by
  match l with
  | [] => simp [splitOnChar]
  | a :: rest =>
    unfold splitOnChar
    by_cases h : a = c
    · simp [h]
    · rw [if_neg h]
      rcases hs : splitOnChar c rest with _ | ⟨g, gs⟩
      · simp
      · simp

/-- `splitPath` of any name is nonempty. -/
theorem splitPath_ne_nil (s : String) : splitPath s ≠ [] := by
  unfold splitPath
  intro h
  exact splitOnChar_ne_nil '/' s.data (List.map_eq_nil_iff.mp h)

/-- Writing a file down an admissible path makes its contents readable. -/
theorem fileContent?_writeFile_self (p : List String) :
    ∀ (t : FsTree) (c : String) (mt : Nat), p ≠ [] → t.pathOk p = true →
    (t.writeFile p c mt).fileContent? p = some c := by
  induction p with
  | nil => intro t c mt hp _; exact absurd rfl hp
  | cons n p' ih =>
    intro t c mt _ hok
    cases p' with
    | nil =>
      cases t with
      | file cc mm => simp [FsTree.pathOk] at hok
      | dir es =>
        show (FsTree.dir (setEntry es n (.file c mt))).fileContent? [n] = some c
        unfold FsTree.fileContent? FsTree.find?
        rw [lookupEntry_setEntry_self]
        rfl
    | cons n2 p'' =>
      cases t with
      | file cc mm => simp [FsTree.pathOk] at hok
      | dir es =>
        have hsubok : (match lookupEntry es n with
            | some (.dir es') => FsTree.dir es'
            | _ => FsTree.dir []).pathOk (n2 :: p'') = true := by
          unfold FsTree.pathOk at hok
          dsimp only at hok
          rcases hl : lookupEntry es n with _ | sub
          · exact pathOk_dirnil _
          · rw [hl] at hok
            cases sub with
            | dir es' => exact hok
            | file c3 m3 => exact pathOk_dirnil _
        have hrec := ih (match lookupEntry es n with
            | some (.dir es') => FsTree.dir es'
            | _ => FsTree.dir []) c mt (by simp) hsubok
        show (FsTree.dir (setEntry es n _)).fileContent? (n :: n2 :: p'') = some c
        unfold FsTree.fileContent? FsTree.find?
        rw [lookupEntry_setEntry_self]
        unfold FsTree.fileContent? at hrec
        exact hrec

/-- `syncPackedRefs` preserves the tree and the clock. -/
theorem syncPackedRefs_frame (st : DotGit) :
    (syncPackedRefs st).1.root = st.root ∧ (syncPackedRefs st).1.clock = st.clock := by
  unfold syncPackedRefs
  split
  · exact ⟨rfl, rfl⟩
  · exact ⟨rfl, rfl⟩
  · split
    · split
      · exact ⟨rfl, rfl⟩
      · exact ⟨rfl, rfl⟩
    · exact ⟨rfl, rfl⟩

/-- `packedRef` preserves the tree and the clock. -/
theorem packedRef_frame (st : DotGit) (n : String) :
    (packedRef st n).1.root = st.root ∧ (packedRef st n).1.clock = st.clock := by
  have h := syncPackedRefs_frame st
  unfold packedRef
  rcases hs : syncPackedRefs st with ⟨st', e⟩
  rw [hs] at h
  dsimp only at h
  cases e with
  | some e => exact h
  | none =>
    dsimp only
    cases cacheGet st'.cachedPackedRefs n <;> exact h

/-- The result of `packedRef` depends only on the packed-refs node, the
cache, and the cached timestamp. -/
theorem packedRef_spec (st : DotGit) (n : String) :
    (packedRef st n).2 = packedRefSpec (st.root.find? [packedRefsPath])
      st.cachedPackedRefs st.packedRefsLastMod n := by
  unfold packedRef syncPackedRefs packedRefSpec
  cases hf : st.root.find? [packedRefsPath] with
  | none =>
    dsimp only
    cases cacheGet st.cachedPackedRefs n <;> rfl
  | some t =>
    cases t with
    | dir es =>
      dsimp only
      cases cacheGet st.cachedPackedRefs n <;> rfl
    | file c m =>
      dsimp only
      by_cases hm : st.packedRefsLastMod < m
      · rw [if_pos hm, if_pos hm]
        rcases buildCacheLoop (scanLines c) [] with ⟨cache, e⟩
        cases e with
        | none =>
          dsimp only
          cases cacheGet cache n <;> rfl
        | some e => rfl
      · rw [if_neg hm, if_neg hm]
        dsimp only
        cases cacheGet st.cachedPackedRefs n <;> rfl

/-- C1: when the stored value the CAS check reads — the loose contents,
falling back to the packed-refs entry on an empty or zero-hash parse —
carries a hash different from the expected one, `SetRef` fails with the
reference-changed-concurrently error and the loose file is neither truncated
nor rewritten: an existing file keeps its exact contents, an absent one is
merely created empty by the `O_CREATE` open. -/
theorem setRef_concurrent_mismatch (st stR : DotGit) (r prev cur : Reference)
    (hn : prev.name = r.name)
    (hpath : st.root.pathOk (splitPath r.name) = true)
    (hnd : isDirNode (st.root.find? (splitPath r.name)) = false)
    (hhead : (splitPath r.name).head? ≠ some packedRefsPath)
    (hread : storedRefRead st r.name = (stR, .ok cur))
    (hne : cur.hash ≠ prev.hash) :
    (SetRef st r (some prev)).2 = some .refChangedConcurrently ∧
    (SetRef st r (some prev)).1.root.fileContent? (splitPath r.name) =
      some ((st.root.fileContent? (splitPath r.name)).getD "") := by
  unfold SetRef
  dsimp only
  rw [hpath]
  simp only [Bool.not_true, Bool.false_eq_true, if_false]
  unfold storedRefRead at hread
  dsimp only at hread
  cases hf : st.root.find? (splitPath r.name) with
  | some t =>
    cases t with
    | dir es => rw [hf] at hnd; simp [isDirNode] at hnd
    | file c mm =>
      dsimp only [Option.isNone, Bool.or_false, Bool.false_eq_true, if_false]
      have hfc : st.root.fileContent? (splitPath r.name) = some c := by
        unfold FsTree.fileContent?
        rw [hf]
      rw [hfc] at hread
      dsimp only [Option.getD] at hread
      have hroot : stR.root = st.root := by
        by_cases hz : (readReferenceFrom c r.name).hash = zeroHash
        · rw [if_pos hz] at hread
          have hfr := (packedRef_frame st r.name).1
          rcases hpr : packedRef st r.name with ⟨stP, res⟩
          rw [hpr] at hread hfr
          injection hread with h1 h2
          rw [← h1]
          exact hfr
        · rw [if_neg hz] at hread
          injection hread with h1 h2
          rw [← h1]
      have hchk : checkReferenceAndTruncate st (splitPath r.name) c (some prev) =
          (stR, some .refChangedConcurrently) := by
        unfold checkReferenceAndTruncate
        dsimp only
        rw [hn]
        by_cases hz : (readReferenceFrom c r.name).hash = zeroHash
        · rw [if_pos hz] at hread ⊢
          rw [hread]
          dsimp only
          rw [if_pos hne]
        · rw [if_neg hz] at hread ⊢
          injection hread with h1 h2
          injection h2 with h2
          rw [h2, h1]
          dsimp only
          rw [if_pos hne]
      simp only [Bool.or_self, Bool.or_false, Bool.false_eq_true, if_false, hchk]
      refine ⟨trivial, ?_⟩
      rw [hroot, hfc]
      rfl
  | none =>
    dsimp only [Option.isNone, Bool.true_or, if_true]
    have hfc : st.root.fileContent? (splitPath r.name) = none := by
      unfold FsTree.fileContent?
      rw [hf]
    rw [hfc] at hread
    dsimp only [Option.getD] at hread
    have hzero : (readReferenceFrom "" r.name).hash = zeroHash := rfl
    rw [if_pos hzero] at hread
    set st1 : DotGit := { st with
      root := st.root.writeFile (splitPath r.name) "" st.clock
      clock := st.clock + 1 } with hst1
    have hcong : (packedRef st1 r.name).2 = (packedRef st r.name).2 := by
      rw [packedRef_spec, packedRef_spec]
      rw [hst1]
      dsimp only
      rw [find?_writeFile_top_ne st.root (splitPath r.name) "" st.clock
        packedRefsPath hhead]
    have hchk : checkReferenceAndTruncate st1 (splitPath r.name) "" (some prev) =
        ((packedRef st1 r.name).1, some .refChangedConcurrently) := by
      unfold checkReferenceAndTruncate
      dsimp only
      rw [hn]
      rw [if_pos hzero]
      rcases hp1 : packedRef st1 r.name with ⟨stP, res⟩
      have hres : res = .ok cur := by
        have : (packedRef st1 r.name).2 = .ok cur := by
          rw [hcong, hread]
        rw [hp1] at this
        exact this
      rw [hres]
      dsimp only
      rw [if_pos hne]
    have hroot2 : (packedRef st1 r.name).1.root = st1.root :=
      (packedRef_frame st1 r.name).1
    rw [hst1] at hchk hroot2
    simp only [Bool.true_or, Bool.false_eq_true, if_true, if_false, hchk]
    refine ⟨trivial, ?_⟩
    rw [hroot2]
    dsimp only
    rw [fileContent?_writeFile_self (splitPath r.name) st.root "" st.clock
      (splitPath_ne_nil _) hpath]
    rw [hfc]
    rfl

/-- C1 witness: with `refs/heads/x` holding `aa…a` and an expected value of
`cc…c`, the store of `bb…b` fails with the concurrency error and the file
still holds `aa…a`. -/
theorem setRef_concurrent_mismatch_witness :
    (SetRef stC1w (.hashRef "refs/heads/x" (NewHash hexB))
      (some (.hashRef "refs/heads/x" (NewHash hexC)))).2 =
        some .refChangedConcurrently ∧
    (SetRef stC1w (.hashRef "refs/heads/x" (NewHash hexB))
      (some (.hashRef "refs/heads/x" (NewHash hexC)))).1.root.fileContent?
        (splitPath "refs/heads/x") =
      some ((stC1w.root.fileContent? (splitPath "refs/heads/x")).getD "") :=
  setRef_concurrent_mismatch stC1w stC1w
    (.hashRef "refs/heads/x" (NewHash hexB))
    (.hashRef "refs/heads/x" (NewHash hexC))
    (.hashRef "refs/heads/x" (NewHash hexA))
    rfl (by decide) (by decide) (by decide) (by decide) (by decide)

/-- The name of a parsed reference is the name it was given. -/
theorem readReferenceFrom_name (c nm : String) :
    (readReferenceFrom c nm).name = nm := by
  unfold readReferenceFrom NewReferenceFromStrings
  split <;> rfl

/-- `addRefsPure` distributes over append. -/
theorem addRefsPure_append (a b : List (List String × String)) :
    ∀ acc, addRefsPure (a ++ b) acc = addRefsPure b (addRefsPure a acc) := by
  induction a with
  | nil => intro acc; rfl
  | cons pc rest ih => intro acc; simp only [List.cons_append, addRefsPure]; exact ih _

/-- The walk is the pure fold of the files in walk order. -/
theorem walkEntries_eq_pure (es : List (String × FsTree)) (rel : List String)
    (acc : List Reference × List String) :
    walkEntries es rel acc = addRefsPure (filesOf es rel) acc := by
  induction es, rel, acc using walkEntries.induct with
  | case1 rel acc => simp [walkEntries, filesOf, addRefsPure]
  | case2 n c mt rest rel acc ih =>
    simp only [walkEntries, filesOf, addRefsPure]
    exact ih
  | case3 n es' rest rel acc ih1 ih2 =>
    simp only [walkEntries, filesOf]
    rw [addRefsPure_append, ← ih1]
    exact ih2

/-- Fresh, distinct names make the fold a plain append. -/
theorem addRefsPure_spec (pcs : List (List String × String)) :
    ∀ refs seen,
      ((pcs.map fun pc => joinPath pc.1).Nodup) →
      (∀ nm ∈ pcs.map fun pc => joinPath pc.1, nm ∉ seen) →
      addRefsPure pcs (refs, seen) =
        (refs ++ pcs.map fileRef, seen ++ pcs.map fun pc => joinPath pc.1) := by
  induction pcs with
  | nil => intro refs seen _ _; simp [addRefsPure]
  | cons pc rest ih =>
    intro refs seen hnd hdisj
    simp only [List.map_cons, List.nodup_cons] at hnd
    have hfresh : joinPath pc.1 ∉ seen := hdisj _ (by simp)
    simp only [addRefsPure, addWalkRef, readReferenceFrom_name]
    have hcont : seen.contains (joinPath pc.1) = false := by
      simp [hfresh]
    rw [hcont]
    simp only [Bool.false_eq_true, if_false]
    rw [ih (refs ++ [readReferenceFrom pc.2 (joinPath pc.1)])
      (seen ++ [joinPath pc.1]) hnd.2 ?fresh]
    · simp [fileRef]
    case fresh =>
      intro nm hnm
      simp only [List.mem_append, List.mem_singleton]
      rintro (h | h)
      · exact hdisj nm (by simp [hnm]) h
      · exact hnd.1 (h ▸ hnm)

/-- Shape of a walked file's path: the prefix, a top name of the listing,
and good components. -/
theorem filesOf_shape (es : List (String × FsTree)) (rel : List String) :
    FsTree.wfEntriesB es = true →
    ∀ pc ∈ filesOf es rel, ∃ n sfx, pc.1 = rel ++ n :: sfx ∧
      n ∈ es.map Prod.fst ∧ goodName n = true ∧
      (∀ x ∈ sfx, goodName x = true) := by
  induction es, rel using filesOf.induct with
  | case1 rel => intro _ pc h; simp [filesOf] at h
  | case2 n c mt rest rel ih =>
    intro hwf pc h
    simp only [FsTree.wfEntriesB, Bool.and_eq_true] at hwf
    obtain ⟨⟨⟨hgood, _⟩, hwfr⟩, hnotin⟩ := hwf
    simp only [filesOf, List.mem_cons] at h
    rcases h with rfl | h
    · exact ⟨n, [], rfl, by simp, hgood, by simp⟩
    · obtain ⟨n', sfx, h1, h2, h3, h4⟩ := ih hwfr pc h
      exact ⟨n', sfx, h1, by simp only [List.map_cons]; exact List.mem_cons_of_mem _ h2,
        h3, h4⟩
  | case3 n es' rest rel ih1 ih2 =>
    intro hwf pc h
    simp only [FsTree.wfEntriesB, Bool.and_eq_true] at hwf
    obtain ⟨⟨⟨hgood, hwfsub⟩, hwfr⟩, hnotin⟩ := hwf
    simp only [filesOf, List.mem_append] at h
    rcases h with h | h
    · have hsub : FsTree.wfEntriesB es' = true := by simpa [FsTree.wfB] using hwfsub
      obtain ⟨n', sfx, h1, h2, h3, h4⟩ := ih1 hsub pc h
      refine ⟨n, n' :: sfx, ?_, by simp, hgood, ?_⟩
      · rw [h1]; simp
      · intro x hx
        rcases List.mem_cons.mp hx with rfl | hx
        · exact h3
        · exact h4 x hx
    · obtain ⟨n', sfx, h1, h2, h3, h4⟩ := ih2 hwfr pc h
      exact ⟨n', sfx, h1, by simp only [List.map_cons]; exact List.mem_cons_of_mem _ h2,
        h3, h4⟩

/-- Distinct files have distinct paths. -/
theorem filesOf_paths_pairwise (es : List (String × FsTree)) (rel : List String) :
    FsTree.wfEntriesB es = true →
    (filesOf es rel).Pairwise (fun a b => a.1 ≠ b.1) := by
  induction es, rel using filesOf.induct with
  | case1 rel => intro _; simp [filesOf]
  | case2 n c mt rest rel ih =>
    intro hwf
    simp only [FsTree.wfEntriesB, Bool.and_eq_true] at hwf
    obtain ⟨⟨⟨hgood, _⟩, hwfr⟩, hnotin⟩ := hwf
    have hni : n ∉ rest.map Prod.fst := by simpa using hnotin
    simp only [filesOf]
    refine List.Pairwise.cons ?_ (ih hwfr)
    intro pc hpc heq
    obtain ⟨n', sfx, h1, h2, _, _⟩ := filesOf_shape rest rel hwfr pc hpc
    rw [h1] at heq
    have hc := List.append_cancel_left heq
    simp only [List.cons.injEq] at hc
    exact hni (hc.1 ▸ h2)
  | case3 n es' rest rel ih1 ih2 =>
    intro hwf
    simp only [FsTree.wfEntriesB, Bool.and_eq_true] at hwf
    obtain ⟨⟨⟨hgood, hwfsub⟩, hwfr⟩, hnotin⟩ := hwf
    have hni : n ∉ rest.map Prod.fst := by simpa using hnotin
    have hsub : FsTree.wfEntriesB es' = true := by simpa [FsTree.wfB] using hwfsub
    simp only [filesOf]
    rw [List.pairwise_append]
    refine ⟨ih1 hsub, ih2 hwfr, ?_⟩
    intro a ha b hb
    obtain ⟨n1, sfx1, ha1, _, _, _⟩ := filesOf_shape es' (rel ++ [n]) hsub a ha
    obtain ⟨n2, sfx2, hb1, hb2, _, _⟩ := filesOf_shape rest rel hwfr b hb
    rw [ha1, hb1]
    intro heq
    rw [List.append_assoc] at heq
    have hc := List.append_cancel_left heq
    simp only [List.singleton_append, List.cons.injEq] at hc
    exact hni (hc.1 ▸ hb2)

/-- A good name has no slash. -/
theorem goodName_no_slash (x : String) (h : goodName x = true) : '/' ∉ x.data := by
  unfold goodName at h
  simp only [Bool.and_eq_true, Bool.not_eq_true'] at h
  have := h.2
  simpa using this

/-- Splitting at the first un-escapable slash is unambiguous. -/
theorem chars_split_uniq : ∀ (xs ys u v : List Char), '/' ∉ xs → '/' ∉ ys →
    xs ++ '/' :: u = ys ++ '/' :: v → xs = ys ∧ u = v := by
  intro xs
  induction xs with
  | nil =>
    intro ys u v _ hys h
    cases ys with
    | nil => simpa using h
    | cons y ys' =>
      simp only [List.nil_append, List.cons_append, List.cons.injEq] at h
      exact absurd (h.1 ▸ List.mem_cons_self y ys') hys
  | cons x xs' ih =>
    intro ys u v hxs hys h
    cases ys with
    | nil =>
      simp only [List.cons_append, List.nil_append, List.cons.injEq] at h
      exact absurd (h.1 ▸ List.mem_cons_self x xs') hxs
    | cons y ys' =>
      simp only [List.cons_append, List.cons.injEq] at h
      have hr := ih ys' u v (fun hm => hxs (List.mem_cons_of_mem _ hm))
        (fun hm => hys (List.mem_cons_of_mem _ hm)) h.2
      exact ⟨by rw [h.1, hr.1], hr.2⟩

/-- The characters of a joined nonempty-tail path. -/
theorem joinPath_data_cons (a : String) (q : List String) (hq : q ≠ []) :
    (joinPath (a :: q)).data = a.data ++ '/' :: (joinPath q).data := by
  cases q with
  | nil => exact absurd rfl hq
  | cons b t =>
    show (a ++ "/" ++ joinPath (b :: t)).data = _
    rw [String.data_append, String.data_append]
    simp

/-- `joinPath` is injective on nonempty paths of good components. -/
theorem joinPath_inj : ∀ (p q : List String), p ≠ [] → q ≠ [] →
    (∀ x ∈ p, goodName x = true) → (∀ x ∈ q, goodName x = true) →
    joinPath p = joinPath q → p = q := by
  intro p
  induction p with
  | nil => intro q hp; exact absurd rfl hp
  | cons a p' ih =>
    intro q _ hq hgp hgq heq
    cases q with
    | nil => exact absurd rfl hq
    | cons b q' =>
      cases p' with
      | nil =>
        cases q' with
        | nil =>
          have : a = b := heq
          rw [this]
        | cons b2 q'' =>
          exfalso
          have hd := congrArg String.data heq
          rw [joinPath_data_cons b (b2 :: q'') (by simp)] at hd
          have hsl : '/' ∈ a.data := by
            have : a.data = b.data ++ '/' :: (joinPath (b2 :: q'')).data := hd
            rw [this]
            simp
          exact goodName_no_slash a (hgp a (by simp)) hsl
      | cons a2 p'' =>
        cases q' with
        | nil =>
          exfalso
          have hd := congrArg String.data heq
          rw [joinPath_data_cons a (a2 :: p'') (by simp)] at hd
          have hsl : '/' ∈ b.data := by
            have : b.data = a.data ++ '/' :: (joinPath (a2 :: p'')).data := hd.symm
            rw [this]
            simp
          exact goodName_no_slash b (hgq b (by simp)) hsl
        | cons b2 q'' =>
          have hd := congrArg String.data heq
          rw [joinPath_data_cons a (a2 :: p'') (by simp),
            joinPath_data_cons b (b2 :: q'') (by simp)] at hd
          obtain ⟨h1, h2⟩ := chars_split_uniq a.data b.data _ _
            (goodName_no_slash a (hgp a (by simp)))
            (goodName_no_slash b (hgq b (by simp))) hd
          have hab : a = b := String.ext h1
          have htail : (a2 :: p'') = (b2 :: q'') :=
            ih (b2 :: q'') (by simp) (by simp)
              (fun x hx => hgp x (List.mem_cons_of_mem _ hx))
              (fun x hx => hgq x (List.mem_cons_of_mem _ hx))
              (String.ext h2)
          rw [hab, htail]

/-- The walked names are distinct in a well-formed tree. -/
theorem filesOf_names_nodup (es : List (String × FsTree)) (rel : List String)
    (hwf : FsTree.wfEntriesB es = true) (hrel : ∀ x ∈ rel, goodName x = true) :
    ((filesOf es rel).map fun pc => joinPath pc.1).Nodup := by
  apply List.pairwise_map.mpr
  apply List.Pairwise.imp_of_mem ?_ (filesOf_paths_pairwise es rel hwf)
  intro a b ha hb hne heq
  apply hne
  obtain ⟨n1, sfx1, h1, _, hg1, hs1⟩ := filesOf_shape es rel hwf a ha
  obtain ⟨n2, sfx2, h2, _, hg2, hs2⟩ := filesOf_shape es rel hwf b hb
  rw [h1, h2]
  apply joinPath_inj _ _ (by simp) (by simp)
  · intro x hx
    rcases List.mem_append.mp hx with hx | hx
    · exact hrel x hx
    · rcases List.mem_cons.mp hx with rfl | hx
      · exact hg1
      · exact hs1 x hx
  · intro x hx
    rcases List.mem_append.mp hx with hx | hx
    · exact hrel x hx
    · rcases List.mem_cons.mp hx with rfl | hx
      · exact hg2
      · exact hs2 x hx
  · rw [← h1, ← h2]
    exact heq

/-- Walking under a prefix shifts the paths (size-fuelled induction). -/
theorem filesOf_shift_aux : ∀ (k : Nat) (es : List (String × FsTree)),
    sizeOf es ≤ k →
    ∀ rel, filesOf es rel = (filesOf es []).map fun pc => (rel ++ pc.1, pc.2) := by
  intro k
  induction k with
  | zero =>
    intro es hsz
    exfalso
    cases es <;> simp_arith at hsz
  | succ k ih =>
    intro es hsz rel
    match es with
    | [] => simp [filesOf]
    | (n, .file c mt) :: rest =>
      have hr : sizeOf rest ≤ k := by
        simp only [List.cons.sizeOf_spec, Prod.mk.sizeOf_spec] at hsz
        omega
      simp only [filesOf, List.map_cons, List.nil_append]
      rw [ih rest hr rel]
    | (n, .dir es') :: rest =>
      have hr : sizeOf rest ≤ k := by
        simp only [List.cons.sizeOf_spec, Prod.mk.sizeOf_spec,
          FsTree.dir.sizeOf_spec] at hsz
        omega
      have he : sizeOf es' ≤ k := by
        simp only [List.cons.sizeOf_spec, Prod.mk.sizeOf_spec,
          FsTree.dir.sizeOf_spec] at hsz
        omega
      simp only [filesOf, List.map_append]
      rw [ih es' he (rel ++ [n]), ih es' he ([] ++ [n]), ih rest hr rel,
        List.map_map]
      congr 1
      apply List.map_congr_left
      intro pc _
      simp [List.append_assoc]

/-- Walking under a prefix shifts the paths. -/
theorem filesOf_shift (es : List (String × FsTree)) (rel : List String) :
    filesOf es rel = (filesOf es []).map fun pc => (rel ++ pc.1, pc.2) :=
  filesOf_shift_aux (sizeOf es) es (Nat.le_refl _) rel

/-- A separator-free list splits into itself. -/
theorem splitOnChar_no_sep (c : Char) (l : List Char) (h : c ∉ l) :
    splitOnChar c l = [l] := by
  induction l with
  | nil => rfl
  | cons a rest ih =>
    unfold splitOnChar
    rw [if_neg (by rintro rfl; exact h (List.mem_cons_self _ _))]
    rw [ih (fun hm => h (List.mem_cons_of_mem _ hm))]

/-- Splitting at the first separator. -/
theorem splitOnChar_append_sep (c : Char) (xs ys : List Char) (h : c ∉ xs) :
    splitOnChar c (xs ++ c :: ys) = xs :: splitOnChar c ys := by
  induction xs with
  | nil =>
    simp only [List.nil_append]
    conv_lhs => unfold splitOnChar
    rw [if_pos rfl]
  | cons a rest ih =>
    simp only [List.cons_append]
    conv_lhs => unfold splitOnChar
    rw [if_neg (by rintro rfl; exact h (List.mem_cons_self _ _))]
    rw [ih (fun hm => h (List.mem_cons_of_mem _ hm))]

/-- `splitPath` undoes `joinPath` on nonempty good paths. -/
theorem splitPath_joinPath (p : List String) (hp : p ≠ [])
    (hg : ∀ x ∈ p, goodName x = true) : splitPath (joinPath p) = p := by
  induction p with
  | nil => exact absurd rfl hp
  | cons a rest ih =>
    cases rest with
    | nil =>
      show splitPath a = [a]
      unfold splitPath
      rw [splitOnChar_no_sep '/' a.data (goodName_no_slash a (hg a (by simp)))]
      simp
    | cons b t =>
      unfold splitPath
      rw [joinPath_data_cons a (b :: t) (by simp)]
      rw [splitOnChar_append_sep '/' a.data _ (goodName_no_slash a (hg a (by simp)))]
      simp only [List.map_cons]
      have hrec := ih (by simp) (fun x hx => hg x (List.mem_cons_of_mem _ hx))
      unfold splitPath at hrec
      rw [hrec]

/-- Appending a different name does not change membership checks. -/
theorem contains_append_single_ne (seen : List String) (x y : String)
    (h : y ≠ x) : (seen ++ [x]).contains y = seen.contains y := by
  by_cases hy : y ∈ seen
  · simp [hy]
  · simp [hy, h]

/-- The packed merge fold appends exactly the unseen cache entries. -/
theorem seenFold_spec (cache : List (String × Reference)) :
    ∀ (refs : List Reference) (seen : List String),
      ((cache.map Prod.fst).Nodup) →
      cache.foldl seenFoldStep (refs, seen) =
        (refs ++ packedAdds cache seen,
         seen ++ (cache.filter fun p => !seen.contains p.1).map Prod.fst) := by
  induction cache with
  | nil => intro refs seen _; simp [packedAdds]
  | cons hd tl ih =>
    intro refs seen hnd
    simp only [List.map_cons, List.nodup_cons] at hnd
    have hne : ∀ p ∈ tl, p.1 ≠ hd.1 := by
      intro p hp heq
      exact hnd.1 (heq ▸ List.mem_map_of_mem Prod.fst hp)
    simp only [List.foldl_cons, seenFoldStep]
    cases hc : seen.contains hd.1 with
    | true =>
      rw [if_pos rfl]
      rw [ih refs seen hnd.2]
      have hm : hd.1 ∈ seen := by simpa using hc
      simp [packedAdds, List.filter_cons, hc, hm]
    | false =>
      simp only [Bool.false_eq_true, if_false]
      rw [ih (refs ++ [hd.2]) (seen ++ [hd.1]) hnd.2]
      have hfeq : (tl.filter fun p => !(seen ++ [hd.1]).contains p.1) =
          (tl.filter fun p => !seen.contains p.1) := by
        apply List.filter_congr
        intro p hp
        rw [contains_append_single_ne seen hd.1 p.1 (hne p hp)]
      have hm : hd.1 ∉ seen := by simpa using hc
      have hfeq2 : (tl.filter fun p => !decide (p.1 ∈ seen) && !decide (p.1 = hd.1)) =
          (tl.filter fun p => !decide (p.1 ∈ seen)) := by
        apply List.filter_congr
        intro p hp
        simp [hne p hp]
      simp [packedAdds, hfeq, List.filter_cons, hc, hm, List.append_assoc, hfeq2]

/-- Setting a fresh name appends. -/
theorem cacheSet_fresh (c : List (String × Reference)) (n : String) (r : Reference)
    (h : n ∉ c.map Prod.fst) : cacheSet c n r = c ++ [(n, r)] := by
  induction c with
  | nil => rfl
  | cons hd tl ih =>
    obtain ⟨m, u⟩ := hd
    simp only [List.map_cons, List.mem_cons, not_or] at h
    unfold cacheSet
    rw [if_neg (fun he => h.1 he.symm)]
    rw [ih h.2]
    simp

/-- Folding `cacheSet` over references with globally fresh names appends. -/
theorem cacheOfRefs_aux (refs : List Reference) :
    ∀ acc : List (String × Reference),
      (acc.map Prod.fst ++ refs.map Reference.name).Nodup →
      refs.foldl (fun c r => cacheSet c r.name r) acc =
        acc ++ refs.map fun r => (r.name, r) := by
  induction refs with
  | nil => intro acc _; simp
  | cons r rest ih =>
    intro acc hnd
    simp only [List.foldl_cons]
    have hdisj := List.disjoint_of_nodup_append hnd
    have hfresh : r.name ∉ acc.map Prod.fst := by
      intro hm
      exact hdisj hm (by simp)
    rw [cacheSet_fresh acc r.name r hfresh]
    rw [ih (acc ++ [(r.name, r)]) ?h]
    · simp
    case h =>
      simp only [List.map_append, List.map_cons] at hnd ⊢
      simpa [List.append_assoc] using hnd

/-- `cacheOfRefs` over distinct names pairs each reference with its name. -/
theorem cacheOfRefs_spec (refs : List Reference)
    (h : (refs.map Reference.name).Nodup) :
    cacheOfRefs refs = refs.map fun r => (r.name, r) := by
  have := cacheOfRefs_aux refs [] (by simpa using h)
  simpa [cacheOfRefs] using this

/-- With honest keys, the merged packed names are the unseen cache keys. -/
theorem packedAdds_names (cache : List (String × Reference)) (seen : List String)
    (hkv : ∀ p ∈ cache, p.1 = p.2.name) :
    (packedAdds cache seen).map Reference.name =
      (cache.filter fun p => !seen.contains p.1).map Prod.fst := by
  unfold packedAdds
  rw [List.map_map]
  apply List.map_congr_left
  intro p hp
  exact (hkv p (List.mem_of_mem_filter hp)).symm

/-- The merged packed names are distinct. -/
theorem packedAdds_nodup (cache : List (String × Reference)) (seen : List String)
    (hnd : (cache.map Prod.fst).Nodup) (hkv : ∀ p ∈ cache, p.1 = p.2.name) :
    ((packedAdds cache seen).map Reference.name).Nodup := by
  rw [packedAdds_names cache seen hkv]
  exact List.Nodup.sublist (List.Sublist.map Prod.fst (List.filter_sublist cache)) hnd

/-- No merged packed reference carries a seen name. -/
theorem packedAdds_not_seen (cache : List (String × Reference)) (seen : List String)
    (hkv : ∀ p ∈ cache, p.1 = p.2.name) :
    ∀ r ∈ packedAdds cache seen, r.name ∉ seen := by
  intro r hr
  unfold packedAdds at hr
  obtain ⟨p, hp, rfl⟩ := List.mem_map.mp hr
  have hm := List.mem_filter.mp hp
  have hns : (!seen.contains p.1) = true := hm.2
  rw [← hkv p hm.1]
  simpa using hns

/-- A well-formed listing has well-formed subtrees. -/
theorem wf_lookup (es : List (String × FsTree)) (n : String) (t : FsTree)
    (hwf : FsTree.wfEntriesB es = true) (h : lookupEntry es n = some t) :
    t.wfB = true := by
  induction es with
  | nil => simp [lookupEntry] at h
  | cons hd rest ih =>
    obtain ⟨m, u⟩ := hd
    simp only [FsTree.wfEntriesB, Bool.and_eq_true] at hwf
    unfold lookupEntry at h
    by_cases hm : m = n
    · rw [if_pos hm] at h
      cases h
      exact hwf.1.1.2
    · rw [if_neg hm] at h
      exact ih hwf.1.2 h

/-- Subtrees found in a well-formed tree are well-formed. -/
theorem wfB_find? : ∀ (p : List String) (t u : FsTree), t.wfB = true →
    t.find? p = some u → u.wfB = true := by
  intro p
  induction p with
  | nil =>
    intro t u hw h
    cases t with
    | file c m =>
      have h' : some (FsTree.file c m) = some u := h
      cases h'
      exact hw
    | dir es =>
      have h' : some (FsTree.dir es) = some u := h
      cases h'
      exact hw
  | cons n rest ih =>
    intro t u hw h
    cases t with
    | file c m => simp [FsTree.find?] at h
    | dir es =>
      unfold FsTree.find? at h
      cases hl : lookupEntry es n with
      | none => rw [hl] at h; simp at h
      | some sub =>
        rw [hl] at h
        exact ih sub u (wf_lookup es n sub (by simpa [FsTree.wfB] using hw) hl) h

/-- The loose walk over the refs directory, evaluated (distinct names). -/
theorem walkRefs_eval (es : List (String × FsTree))
    (hndn : ((filesOf es [refsName]).map fun pc => joinPath pc.1).Nodup) :
    walkEntries es [refsName] ([], []) =
      ((filesOf es [refsName]).map fileRef,
       (filesOf es [refsName]).map fun pc => joinPath pc.1) := by
  rw [walkEntries_eq_pure]
  have hpure := addRefsPure_spec (filesOf es [refsName]) [] [] hndn
    (by intro nm _ h; simp at h)
  simpa using hpure

/-- The full `Refs` run with a fresh cache: the loose walk, then the packed
merge, then the HEAD step, as a pure function of the tree and the cache. -/
theorem refs_run (st : DotGit) (es : List (String × FsTree))
    (hsync : syncPackedRefs st = (st, none))
    (hrefs : st.root.find? [refsName] = some (.dir es))
    (hndn : ((filesOf es [refsName]).map fun pc => joinPath pc.1).Nodup)
    (hnd : (st.cachedPackedRefs.map Prod.fst).Nodup) :
    Refs st = (st,
      assembleResult
        ((filesOf es [refsName]).map fileRef ++
          packedAdds st.cachedPackedRefs
            ((filesOf es [refsName]).map fun pc => joinPath pc.1))
        (st.root.find? ["HEAD"])) := by
  have hwalk := walkRefs_eval es hndn
  unfold Refs addRefsFromRefDir
  rw [hrefs]
  dsimp only
  rw [hwalk]
  unfold addRefsFromPackedRefs
  rw [hsync]
  dsimp only
  rw [seenFold_spec st.cachedPackedRefs _ _ hnd]
  dsimp only
  unfold addRefFromHEAD assembleResult
  cases hH : st.root.find? ["HEAD"] with
  | none => rfl
  | some t =>
    cases t with
    | file c m => rfl
    | dir es2 => rfl

/-- The merged loose-then-packed list has distinct names. -/
theorem merged_names_nodup (es : List (String × FsTree))
    (cache : List (String × Reference))
    (hwfes : FsTree.wfEntriesB es = true)
    (hndc : (cache.map Prod.fst).Nodup)
    (hkv : ∀ p ∈ cache, p.1 = p.2.name) :
    ((((filesOf es [refsName]).map fileRef) ++
      packedAdds cache ((filesOf es [refsName]).map fun pc => joinPath pc.1)).map
        Reference.name).Nodup := by
  have hgood : ∀ x ∈ [refsName], goodName x = true := by
    intro x hx
    have hx' : x = refsName := by simpa using hx
    subst hx'
    decide
  have hlooseNames : ((filesOf es [refsName]).map fileRef).map Reference.name =
      (filesOf es [refsName]).map fun pc => joinPath pc.1 := by
    rw [List.map_map]
    apply List.map_congr_left
    intro pc _
    exact readReferenceFrom_name _ _
  rw [List.map_append]
  apply List.Nodup.append
  · rw [hlooseNames]
    exact filesOf_names_nodup es [refsName] hwfes hgood
  · exact packedAdds_nodup _ _ hndc hkv
  · intro a ha hb
    rw [hlooseNames] at ha
    obtain ⟨r, hr, rfl⟩ := List.mem_map.mp hb
    exact packedAdds_not_seen _ _ hkv r hr ha

/-- Filtering keeps reference names distinct. -/
theorem filter_names_nodup (l : List Reference) (p : Reference → Bool)
    (h : (l.map Reference.name).Nodup) :
    ((l.filter p).map Reference.name).Nodup :=
  List.Nodup.sublist (List.Sublist.map _ (List.filter_sublist l)) h

/-- C3 (amended): on a synchronized well-formed state, `Refs` yields each
name other than `HEAD` at most once, and the returned list begins with
exactly the loose references, so for a name present both loose and packed
the loose value is the one returned; every later entry is either the
appended `HEAD` reference or carries a name with no loose file. -/
theorem refs_nodup_loose_wins (st stR : DotGit) (es : List (String × FsTree))
    (refs : List Reference)
    (hwf : WfDotGit st)
    (hsync : syncPackedRefs st = (st, none))
    (hrefs : st.root.find? [refsName] = some (.dir es))
    (hrun : Refs st = (stR, .ok refs)) :
    ((refs.filter fun r => !(r.name = "HEAD")).map Reference.name).Nodup ∧
    ∃ tail, refs = (filesOf es [refsName]).map fileRef ++ tail ∧
      ∀ r ∈ tail, r.name = "HEAD" ∨
        r.name ∉ (filesOf es [refsName]).map fun pc => joinPath pc.1 := by
  obtain ⟨hwfb, hmiss, hndc, hkv⟩ := hwf
  have hwfes : FsTree.wfEntriesB es = true := by
    have h2 := wfB_find? [refsName] st.root (.dir es) hwfb hrefs
    simpa [FsTree.wfB] using h2
  have hgood : ∀ x ∈ [refsName], goodName x = true := by
    intro x hx
    have hx' : x = refsName := by simpa using hx
    subst hx'
    decide
  have hrr := refs_run st es hsync hrefs
    (filesOf_names_nodup es [refsName] hwfes hgood) hndc
  rw [hrun] at hrr
  have hMnd := merged_names_nodup es st.cachedPackedRefs hwfes hndc hkv
  cases hH : st.root.find? ["HEAD"] with
  | none =>
    rw [hH] at hrr
    simp only [assembleResult] at hrr
    have heq : refs = (filesOf es [refsName]).map fileRef ++
        packedAdds st.cachedPackedRefs
          ((filesOf es [refsName]).map fun pc => joinPath pc.1) := by
      have h3 := congrArg Prod.snd hrr
      simpa using h3
    constructor
    · rw [heq]
      exact filter_names_nodup _ _ hMnd
    · refine ⟨_, heq, ?_⟩
      intro r hr
      exact Or.inr fun hm => packedAdds_not_seen _ _ hkv r hr hm
  | some t =>
    rw [hH] at hrr
    cases t with
    | dir es2 =>
      simp only [assembleResult] at hrr
      have h3 := congrArg Prod.snd hrr
      simp at h3
    | file c m =>
      simp only [assembleResult] at hrr
      have heq : refs = ((filesOf es [refsName]).map fileRef ++
          packedAdds st.cachedPackedRefs
            ((filesOf es [refsName]).map fun pc => joinPath pc.1)) ++
          [readReferenceFrom c "HEAD"] := by
        have h3 := congrArg Prod.snd hrr
        simpa using h3
      have hheadName : (readReferenceFrom c "HEAD").name = "HEAD" :=
        readReferenceFrom_name _ _
      constructor
      · rw [heq, List.filter_append]
        have hsingle : ([readReferenceFrom c "HEAD"].filter
            fun r => !(r.name = "HEAD")) = [] := by
          simp [List.filter, hheadName]
        rw [hsingle, List.append_nil]
        exact filter_names_nodup _ _ hMnd
      · refine ⟨packedAdds st.cachedPackedRefs
            ((filesOf es [refsName]).map fun pc => joinPath pc.1) ++
            [readReferenceFrom c "HEAD"], by rw [heq, List.append_assoc], ?_⟩
        intro r hr
        rcases List.mem_append.mp hr with hr | hr
        · exact Or.inr fun hm => packedAdds_not_seen _ _ hkv r hr hm
        · have hr' : r = readReferenceFrom c "HEAD" := by simpa using hr
          subst hr'
          exact Or.inl hheadName

/-- The loose walk of the C3 witness state, evaluated. -/
theorem walkC3w_eval : walkEntries esC3w [refsName] ([], []) =
    ([.hashRef "refs/heads/x" (NewHash hexB)], ["refs/heads/x"]) := by
  simp [esC3w, walkEntries, refsName, addWalkRef]
  decide

/-- Witness for C3: a state with a loose and a packed `refs/heads/x`, a
packed `refs/heads/p`, and a symbolic `HEAD` file, at which the theorem's
hypotheses hold and its conclusion follows. -/
theorem refs_nodup_loose_wins_witness :
    WfDotGit stC3w ∧
    (((refsC3w.filter fun r => !(r.name = "HEAD")).map Reference.name).Nodup ∧
     ∃ tail, refsC3w = (filesOf esC3w [refsName]).map fileRef ++ tail ∧
       ∀ r ∈ tail, r.name = "HEAD" ∨
         r.name ∉ (filesOf esC3w [refsName]).map fun pc => joinPath pc.1) :=
  ⟨⟨by decide, by decide, by decide, by decide⟩,
   refs_nodup_loose_wins stC3w stC3w esC3w refsC3w
     ⟨by decide, by decide, by decide, by decide⟩
     (by decide) (by decide)
     (by
       have h1 : stC3w.root.find? [refsName] = some (.dir esC3w) := by decide
       unfold Refs addRefsFromRefDir
       rw [h1]
       dsimp only
       rw [walkC3w_eval]
       decide)⟩

/-- Setting an entry that is already present with the same value is a no-op. -/
theorem setEntry_lookup_self (es : List (String × FsTree)) (n : String)
    (d : FsTree) (h : lookupEntry es n = some d) : setEntry es n d = es := by
  induction es with
  | nil => simp [lookupEntry] at h
  | cons hd rest ih =>
    obtain ⟨m, v⟩ := hd
    unfold lookupEntry at h
    unfold setEntry
    by_cases hm : m = n
    · rw [if_pos hm] at h
      rw [if_pos hm]
      cases h
      rfl
    · rw [if_neg hm] at h
      rw [if_neg hm, ih h]

/-- Re-setting the same name collapses to the last write. -/
theorem setEntry_setEntry (es : List (String × FsTree)) (n : String)
    (t u : FsTree) : setEntry (setEntry es n t) n u = setEntry es n u := by
  induction es with
  | nil => simp [setEntry]
  | cons hd rest ih =>
    obtain ⟨m, v⟩ := hd
    by_cases h : m = n
    · simp [setEntry, h]
    · simp [setEntry, h, ih]

/-- Removal does not touch entries of other names. -/
theorem lookupEntry_removeEntry_ne (es : List (String × FsTree)) (n q : String)
    (h : n ≠ q) : lookupEntry (removeEntry es n) q = lookupEntry es q := by
  induction es with
  | nil => rfl
  | cons hd rest ih =>
    obtain ⟨m, v⟩ := hd
    unfold removeEntry
    by_cases hm : m = n
    · rw [if_pos hm]
      conv_rhs => unfold lookupEntry
      rw [if_neg (by rw [hm]; exact h)]
    · rw [if_neg hm]
      unfold lookupEntry
      by_cases hq : m = q
      · rw [if_pos hq, if_pos hq]
      · rw [if_neg hq, if_neg hq]
        exact ih

/-- `find?` at a top-level name is the entry lookup. -/
theorem find?_single_lookup (es : List (String × FsTree)) (q : String) :
    (FsTree.dir es).find? [q] = lookupEntry es q := by
  unfold FsTree.find?
  cases hl : lookupEntry es q with
  | none => rfl
  | some t => cases t <;> rfl

/-- A top-level write at name `n` is read back by `find?` at `[n]`. -/
theorem find?_writeFile_top_self (es : List (String × FsTree)) (n : String)
    (c : String) (mt : Nat) :
    ((FsTree.dir es).writeFile [n] c mt).find? [n] = some (.file c mt) := by
  show (FsTree.dir (setEntry es n (.file c mt))).find? [n] = _
  rw [find?_single_lookup, lookupEntry_setEntry_self]

/-- A removal whose path starts off a top-level name `q` does not change the
node at `[q]`. -/
theorem find?_removePath_top_ne (t : FsTree) (n : String) (p : List String)
    (q : String) (h : n ≠ q) :
    (t.removePath (n :: p)).find? [q] = t.find? [q] := by
  cases t with
  | file c m =>
    cases p with
    | nil => rfl
    | cons p1 p' => rfl
  | dir es =>
    cases p with
    | nil =>
      show (FsTree.dir (removeEntry es n)).find? [q] = _
      rw [find?_single_lookup, find?_single_lookup]
      exact lookupEntry_removeEntry_ne es n q h
    | cons p1 p' =>
      cases hl : lookupEntry es n with
      | none =>
        show FsTree.find? (FsTree.removePath (.dir es) (n :: p1 :: p')) [q] = _
        unfold FsTree.removePath
        dsimp only
        rw [hl]
      | some sub =>
        show FsTree.find? (FsTree.removePath (.dir es) (n :: p1 :: p')) [q] = _
        unfold FsTree.removePath
        dsimp only
        rw [hl]
        dsimp only
        rw [find?_single_lookup, find?_single_lookup]
        exact lookupEntry_setEntry_ne es n _ q h

/-- Folding removals that all start off `q` does not change the node at
`[q]`. -/
theorem find?_foldl_removePath_ne :
    ∀ (paths : List (List String)) (t : FsTree) (q : String),
      (∀ pa ∈ paths, ∃ n p, pa = n :: p ∧ n ≠ q) →
      (paths.foldl FsTree.removePath t).find? [q] = t.find? [q] := by
  intro paths
  induction paths with
  | nil => intro t q _; rfl
  | cons pa pas ih =>
    intro t q hq
    obtain ⟨n, p, hpa, hn⟩ := hq pa (by simp)
    subst hpa
    simp only [List.foldl_cons]
    rw [ih _ q (fun x hx => hq x (by simp [hx]))]
    exact find?_removePath_top_ne t n p q hn

/-- Removals under a fixed top entry fold into that entry. -/
theorem foldl_removePath_under :
    ∀ (sfxs : List (List String)) (es : List (String × FsTree)) (n : String)
      (d : FsTree), lookupEntry es n = some d → (∀ s ∈ sfxs, s ≠ []) →
      (sfxs.map (n :: ·)).foldl FsTree.removePath (.dir es) =
        .dir (setEntry es n (sfxs.foldl FsTree.removePath d)) := by
  intro sfxs
  induction sfxs with
  | nil =>
    intro es n d hlk _
    simp only [List.map_nil, List.foldl_nil]
    rw [setEntry_lookup_self es n d hlk]
  | cons sfx rest ih =>
    intro es n d hlk hne
    have hx : sfx ≠ [] := hne sfx (by simp)
    simp only [List.map_cons, List.foldl_cons]
    have hstep : FsTree.removePath (.dir es) (n :: sfx) =
        .dir (setEntry es n (FsTree.removePath d sfx)) := by
      cases sfx with
      | nil => exact absurd rfl hx
      | cons s1 srest =>
        show FsTree.removePath (.dir es) (n :: s1 :: srest) = _
        conv_lhs => unfold FsTree.removePath
        dsimp only
        rw [hlk]
    rw [hstep]
    rw [ih (setEntry es n (FsTree.removePath d sfx)) n (FsTree.removePath d sfx)
      (lookupEntry_setEntry_self es n _) (fun s hs => hne s (by simp [hs]))]
    rw [setEntry_setEntry]

/-- A removal starting at a different top name only touches the tail. -/
theorem removePath_cons_ne (n : String) (t : FsTree)
    (rest : List (String × FsTree)) (m : String) (p : List String) (h : m ≠ n) :
    ∃ es2, FsTree.removePath (.dir rest) (m :: p) = .dir es2 ∧
      FsTree.removePath (.dir ((n, t) :: rest)) (m :: p) = .dir ((n, t) :: es2) := by
  cases p with
  | nil =>
    refine ⟨removeEntry rest m, rfl, ?_⟩
    show FsTree.dir (removeEntry ((n, t) :: rest) m) = _
    conv_lhs => unfold removeEntry
    rw [if_neg fun he => h he.symm]
  | cons p1 p' =>
    have hlk : lookupEntry ((n, t) :: rest) m = lookupEntry rest m := by
      conv_lhs => unfold lookupEntry
      rw [if_neg fun he => h he.symm]
    cases hl : lookupEntry rest m with
    | none =>
      refine ⟨rest, ?_, ?_⟩
      · show FsTree.removePath (.dir rest) (m :: p1 :: p') = _
        conv_lhs => unfold FsTree.removePath
        dsimp only
        rw [hl]
      · show FsTree.removePath (.dir ((n, t) :: rest)) (m :: p1 :: p') = _
        conv_lhs => unfold FsTree.removePath
        dsimp only
        rw [hlk, hl]
    | some sub =>
      refine ⟨setEntry rest m (FsTree.removePath sub (p1 :: p')), ?_, ?_⟩
      · show FsTree.removePath (.dir rest) (m :: p1 :: p') = _
        conv_lhs => unfold FsTree.removePath
        dsimp only
        rw [hl]
      · show FsTree.removePath (.dir ((n, t) :: rest)) (m :: p1 :: p') = _
        conv_lhs => unfold FsTree.removePath
        dsimp only
        rw [hlk, hl]
        have hse : setEntry ((n, t) :: rest) m (FsTree.removePath sub (p1 :: p')) =
            (n, t) :: setEntry rest m (FsTree.removePath sub (p1 :: p')) := by
          conv_lhs => unfold setEntry
          rw [if_neg fun he => h he.symm]
        dsimp only
        rw [hse]

/-- Removals that all start at other top names skip a top entry. -/
theorem foldl_removePath_skip :
    ∀ (paths : List (List String)) (n : String) (t : FsTree)
      (rest : List (String × FsTree)),
      (∀ q ∈ paths, ∃ m p, q = m :: p ∧ m ≠ n) →
      ∃ es2, paths.foldl FsTree.removePath (.dir rest) = .dir es2 ∧
        paths.foldl FsTree.removePath (.dir ((n, t) :: rest)) =
          .dir ((n, t) :: es2) := by
  intro paths
  induction paths with
  | nil => intro n t rest _; exact ⟨rest, rfl, rfl⟩
  | cons q qs ih =>
    intro n t rest hq
    obtain ⟨m, p, hqe, hmn⟩ := hq q (by simp)
    subst hqe
    obtain ⟨es2, h1, h2⟩ := removePath_cons_ne n t rest m p hmn
    simp only [List.foldl_cons]
    rw [h1, h2]
    exact ih n t es2 (fun x hx => hq x (by simp [hx]))

/-- A walked file's reference carries the joined path as its name. -/
theorem fileRef_name (pc : List String × String) :
    (fileRef pc).name = joinPath pc.1 :=
  readReferenceFrom_name _ _

/-- Deleting the loose files of walked references is a path fold. -/
theorem removeRefFiles_as_paths (t : FsTree)
    (files : List (List String × String))
    (hg : ∀ pc ∈ files, pc.1 ≠ [] ∧ ∀ x ∈ pc.1, goodName x = true) :
    removeRefFiles t (files.map fileRef) =
      (files.map Prod.fst).foldl FsTree.removePath t := by
  unfold removeRefFiles
  rw [List.foldl_map, List.foldl_map]
  apply List.foldl_ext
  intro b pc hpc
  rw [fileRef_name, splitPath_joinPath pc.1 (hg pc hpc).1 (hg pc hpc).2]

/-- With nothing seen, the packed merge takes every cache entry. -/
theorem packedAdds_nil_seen (cache : List (String × Reference)) :
    packedAdds cache [] = cache.map Prod.snd := by
  unfold packedAdds
  rw [List.filter_eq_self.mpr]
  intro p _
  rfl

/-- A temp-file name never collides with a name not starting with a dot. -/
theorem tmpPre_append_ne (s other : String)
    (h : other.data.head? ≠ some '.') : tmpPackedRefsPre ++ s ≠ other := by
  intro he
  apply h
  rw [← he, String.data_append]
  rfl

/-- Removing every walked file path empties a well-formed listing
(size-fuelled induction). -/
theorem removeWalk_aux :
    ∀ (k : Nat) (es : List (String × FsTree)), sizeOf es ≤ k →
      FsTree.wfEntriesB es = true →
      ∃ es', ((filesOf es []).map Prod.fst).foldl FsTree.removePath (.dir es) =
          .dir es' ∧ filesOf es' [] = [] := by
  intro k
  induction k with
  | zero =>
    intro es hsz
    exfalso
    cases es <;> simp_arith at hsz
  | succ k ih =>
    intro es hsz hwf
    match es with
    | [] => exact ⟨[], by simp [filesOf], by simp [filesOf]⟩
    | (n, .file c mt) :: rest =>
      simp only [FsTree.wfEntriesB, Bool.and_eq_true] at hwf
      obtain ⟨⟨⟨hgood, _⟩, hwfr⟩, hnotin⟩ := hwf
      have hr : sizeOf rest ≤ k := by
        simp only [List.cons.sizeOf_spec, Prod.mk.sizeOf_spec] at hsz
        omega
      have hstep : FsTree.removePath (.dir ((n, FsTree.file c mt) :: rest)) [n] =
          .dir rest := by
        show FsTree.dir (removeEntry ((n, FsTree.file c mt) :: rest) n) = _
        conv_lhs => unfold removeEntry
        rw [if_pos rfl]
      obtain ⟨es', h1, h2⟩ := ih rest hr hwfr
      refine ⟨es', ?_, h2⟩
      simp only [filesOf, List.map_cons, List.foldl_cons, List.nil_append]
      rw [hstep]
      exact h1
    | (n, .dir sub) :: rest =>
      simp only [FsTree.wfEntriesB, Bool.and_eq_true] at hwf
      obtain ⟨⟨⟨hgood, hwfsub⟩, hwfr⟩, hnotin⟩ := hwf
      have hwfs : FsTree.wfEntriesB sub = true := by simpa [FsTree.wfB] using hwfsub
      have hr : sizeOf rest ≤ k := by
        simp only [List.cons.sizeOf_spec, Prod.mk.sizeOf_spec,
          FsTree.dir.sizeOf_spec] at hsz
        omega
      have hs : sizeOf sub ≤ k := by
        simp only [List.cons.sizeOf_spec, Prod.mk.sizeOf_spec,
          FsTree.dir.sizeOf_spec] at hsz
        omega
      have hni : n ∉ rest.map Prod.fst := by simpa using hnotin
      obtain ⟨subE, hsub1, hsub2⟩ := ih sub hs hwfs
      have hpaths : (filesOf ((n, FsTree.dir sub) :: rest) []).map Prod.fst =
          ((filesOf sub []).map Prod.fst).map (n :: ·) ++
            (filesOf rest []).map Prod.fst := by
        simp only [filesOf, List.nil_append, List.map_append]
        congr 1
        rw [filesOf_shift sub [n], List.map_map, List.map_map]
        rfl
      have hne1 : ∀ s ∈ (filesOf sub []).map Prod.fst, s ≠ [] := by
        intro s hsm
        obtain ⟨pc, hpc, rfl⟩ := List.mem_map.mp hsm
        obtain ⟨n', sfx, hshape, _, _, _⟩ := filesOf_shape sub [] hwfs pc hpc
        rw [hshape]
        simp
      have hlk : lookupEntry ((n, FsTree.dir sub) :: rest) n = some (.dir sub) := by
        unfold lookupEntry
        rw [if_pos rfl]
      have hset : setEntry ((n, FsTree.dir sub) :: rest) n (.dir subE) =
          (n, FsTree.dir subE) :: rest := by
        unfold setEntry
        rw [if_pos rfl]
      have hq : ∀ q ∈ (filesOf rest []).map Prod.fst,
          ∃ m p, q = m :: p ∧ m ≠ n := by
        intro q hq'
        obtain ⟨pc, hpc, rfl⟩ := List.mem_map.mp hq'
        obtain ⟨m, sfx, hshape, hmem, _, _⟩ := filesOf_shape rest [] hwfr pc hpc
        exact ⟨m, sfx, by simpa using hshape, fun he => hni (he ▸ hmem)⟩
      obtain ⟨es2, hsk1, hsk2⟩ := foldl_removePath_skip _ n (.dir subE) rest hq
      obtain ⟨esR, hr1, hr2⟩ := ih rest hr hwfr
      have hes2 : es2 = esR := by
        have hdd : FsTree.dir es2 = FsTree.dir esR := hsk1.symm.trans hr1
        injection hdd
      subst hes2
      refine ⟨(n, FsTree.dir subE) :: es2, ?_, ?_⟩
      · rw [hpaths, List.foldl_append,
          foldl_removePath_under _ _ n (.dir sub) hlk hne1, hsub1, hset, hsk2]
      · simp only [filesOf, List.nil_append]
        rw [filesOf_shift subE [n], hsub2, hr2]
        simp

/-- C4: on a synchronized well-formed state with a packed-refs file and at
least one loose reference, `PackRefs` succeeds, `Refs` returns the same
result afterwards, and `CountLooseRefs` returns zero. -/
theorem packRefs_preserves (st : DotGit) (es : List (String × FsTree))
    (c0 : String) (m0 : Nat)
    (hwf : WfDotGit st)
    (hsync : syncPackedRefs st = (st, none))
    (hrefs : st.root.find? [refsName] = some (.dir es))
    (hpk : st.root.find? [packedRefsPath] = some (.file c0 m0))
    (hne : filesOf es [refsName] ≠ []) :
    ∃ stR, PackRefs st = (stR, none) ∧
      (Refs stR).2 = (Refs st).2 ∧ CountLooseRefs stR = .ok 0 := by
  obtain ⟨hwfb, hmiss, hndc, hkv⟩ := hwf
  have hwfes : FsTree.wfEntriesB es = true := by
    have h2 := wfB_find? [refsName] st.root (.dir es) hwfb hrefs
    simpa [FsTree.wfB] using h2
  obtain ⟨rootEs, hroot⟩ : ∃ rootEs, st.root = .dir rootEs := by
    cases hr : st.root with
    | file c m =>
      rw [hr] at hrefs
      simp [FsTree.find?] at hrefs
    | dir es0 => exact ⟨es0, rfl⟩
  have hgood : ∀ x ∈ [refsName], goodName x = true := by
    intro x hx
    have hx' : x = refsName := by simpa using hx
    subst hx'
    decide
  have hndn := filesOf_names_nodup es [refsName] hwfes hgood
  -- the merged reference list and the written content
  have hMnd := merged_names_nodup es st.cachedPackedRefs hwfes hndc hkv
  have hlen : ¬(((filesOf es [refsName]).map fileRef).length = 0) := by
    simp only [List.length_map, List.length_eq_zero]
    exact hne
  have haddDir : addRefsFromRefDir st ([], []) =
      .ok ((filesOf es [refsName]).map fileRef,
           (filesOf es [refsName]).map fun pc => joinPath pc.1) := by
    unfold addRefsFromRefDir
    rw [hrefs]
    dsimp only
    rw [walkRefs_eval es hndn]
  have hmerge : addRefsFromPackedRefs st
      ((filesOf es [refsName]).map fileRef,
       (filesOf es [refsName]).map fun pc => joinPath pc.1) =
      (st, .ok
        ((filesOf es [refsName]).map fileRef ++
           packedAdds st.cachedPackedRefs
             ((filesOf es [refsName]).map fun pc => joinPath pc.1),
         ((filesOf es [refsName]).map fun pc => joinPath pc.1) ++
           (st.cachedPackedRefs.filter fun p =>
             !((filesOf es [refsName]).map fun pc => joinPath pc.1).contains
               p.1).map Prod.fst)) := by
    unfold addRefsFromPackedRefs
    rw [hsync]
    dsimp only
    rw [seenFold_spec _ _ _ hndc]
  have hPR : PackRefs st =
      ({ root := removeRefFiles
            (((st.root.writeFile [tmpPackedRefsPre ++ toString st.clock]
                (packedLines ((filesOf es [refsName]).map fileRef ++
                  packedAdds st.cachedPackedRefs
                    ((filesOf es [refsName]).map fun pc => joinPath pc.1)))
                st.clock).removePath
                  [tmpPackedRefsPre ++ toString st.clock]).writeFile
              [packedRefsPath]
              (packedLines ((filesOf es [refsName]).map fileRef ++
                packedAdds st.cachedPackedRefs
                  ((filesOf es [refsName]).map fun pc => joinPath pc.1)))
              st.clock)
            ((filesOf es [refsName]).map fileRef)
         cachedPackedRefs := cacheOfRefs
            ((filesOf es [refsName]).map fileRef ++
              packedAdds st.cachedPackedRefs
                ((filesOf es [refsName]).map fun pc => joinPath pc.1))
         packedRefsLastMod := st.clock + 1
         clock := st.clock + 2 }, none) := by
    unfold PackRefs
    rw [hpk]
    dsimp only
    rw [haddDir]
    dsimp only
    rw [if_neg hlen, hmerge]
  set M := (filesOf es [refsName]).map fileRef ++
    packedAdds st.cachedPackedRefs
      ((filesOf es [refsName]).map fun pc => joinPath pc.1) with hM
  set cnt := packedLines M with hcnt
  set tmpN := tmpPackedRefsPre ++ toString st.clock with htmpN
  set r2 := ((st.root.writeFile [tmpN] cnt st.clock).removePath
    [tmpN]).writeFile [packedRefsPath] cnt st.clock with hr2
  set R := removeRefFiles r2 ((filesOf es [refsName]).map fileRef) with hR
  have hfshape := filesOf_shape es [refsName] hwfes
  have hgoodpc : ∀ pc ∈ filesOf es [refsName],
      pc.1 ≠ [] ∧ ∀ x ∈ pc.1, goodName x = true := by
    intro pc hpc
    obtain ⟨n', sfx, h1, _, h3, h4⟩ := hfshape pc hpc
    constructor
    · rw [h1]; simp
    · intro x hx
      rw [h1] at hx
      rcases List.mem_append.mp hx with hx | hx
      · have hx' : x = refsName := by simpa using hx
        subst hx'
        decide
      · rcases List.mem_cons.mp hx with rfl | hx
        · exact h3
        · exact h4 x hx
  have hremconv : ∀ T : FsTree,
      removeRefFiles T ((filesOf es [refsName]).map fileRef) =
        ((filesOf es [refsName]).map Prod.fst).foldl FsTree.removePath T :=
    fun T => removeRefFiles_as_paths T _ hgoodpc
  have hpathshape : ∀ q ∈ (filesOf es [refsName]).map Prod.fst,
      ∃ tl, q = refsName :: tl := by
    intro q hq
    obtain ⟨pc, hpc, rfl⟩ := List.mem_map.mp hq
    obtain ⟨n', sfx, h1, _, _, _⟩ := hfshape pc hpc
    exact ⟨n' :: sfx, by simpa using h1⟩
  have hpaths2 : (filesOf es [refsName]).map Prod.fst =
      ((filesOf es []).map Prod.fst).map (refsName :: ·) := by
    rw [filesOf_shift es [refsName], List.map_map, List.map_map]
    rfl
  have hne1 : ∀ s ∈ (filesOf es []).map Prod.fst, s ≠ [] := by
    intro s hsm
    obtain ⟨pc, hpc, rfl⟩ := List.mem_map.mp hsm
    obtain ⟨n', sfx, hshape, _, _, _⟩ := filesOf_shape es [] hwfes pc hpc
    rw [hshape]
    simp
  obtain ⟨esR, hfold, hesR⟩ := removeWalk_aux (sizeOf es) es (Nat.le_refl _) hwfes
  have htmpne : ∀ q : String, q.data.head? ≠ some '.' → tmpN ≠ q := fun q h =>
    tmpPre_append_ne (toString st.clock) q h
  have hr2eq : r2 = .dir (setEntry
      (removeEntry (setEntry rootEs tmpN (.file cnt st.clock)) tmpN)
      packedRefsPath (.file cnt st.clock)) := by
    rw [hr2, hroot]
    rfl
  have hlkroot : lookupEntry rootEs refsName = some (.dir es) := by
    rw [hroot, find?_single_lookup] at hrefs
    exact hrefs
  have hlkEs3 : lookupEntry (setEntry
      (removeEntry (setEntry rootEs tmpN (.file cnt st.clock)) tmpN)
      packedRefsPath (.file cnt st.clock)) refsName = some (.dir es) := by
    rw [lookupEntry_setEntry_ne _ _ _ _ (by decide : packedRefsPath ≠ refsName)]
    rw [lookupEntry_removeEntry_ne _ _ _ (htmpne refsName (by decide))]
    rw [lookupEntry_setEntry_ne _ _ _ _ (htmpne refsName (by decide))]
    exact hlkroot
  have hRfold : R = .dir (setEntry (setEntry
      (removeEntry (setEntry rootEs tmpN (.file cnt st.clock)) tmpN)
      packedRefsPath (.file cnt st.clock)) refsName (.dir esR)) := by
    rw [hR, hremconv r2, hr2eq, hpaths2,
      foldl_removePath_under _ _ refsName (.dir es) hlkEs3 hne1, hfold]
  have f5 : R.find? [refsName] = some (.dir esR) := by
    rw [hRfold, find?_single_lookup, lookupEntry_setEntry_self]
  have hheads : ∀ q' : String, refsName ≠ q' →
      ∀ pa ∈ (filesOf es [refsName]).map Prod.fst,
        ∃ n p, pa = n :: p ∧ n ≠ q' := by
    intro q' hq' pa hpa
    obtain ⟨tl, rfl⟩ := hpathshape pa hpa
    exact ⟨refsName, tl, rfl, hq'⟩
  have f3 : R.find? [packedRefsPath] = some (.file cnt st.clock) := by
    rw [hR, hremconv r2,
      find?_foldl_removePath_ne _ _ _ (hheads packedRefsPath (by decide)),
      hr2eq, find?_single_lookup, lookupEntry_setEntry_self]
  have hhd1 : ([packedRefsPath] : List String).head? ≠ some "HEAD" := by decide
  have hhd2 : ([tmpN] : List String).head? ≠ some "HEAD" := by
    simp only [List.head?_cons, ne_eq, Option.some.injEq]
    exact htmpne "HEAD" (by decide)
  have f4 : R.find? ["HEAD"] = st.root.find? ["HEAD"] := by
    rw [hR, hremconv r2,
      find?_foldl_removePath_ne _ _ _ (hheads "HEAD" (by decide)), hr2,
      find?_writeFile_top_ne _ _ _ _ _ hhd1,
      find?_removePath_top_ne _ _ _ _ (htmpne "HEAD" (by decide)),
      find?_writeFile_top_ne _ _ _ _ _ hhd2]
  have hsyncR : syncPackedRefs
      (⟨R, cacheOfRefs M, st.clock + 1, st.clock + 2⟩ : DotGit) =
      (⟨R, cacheOfRefs M, st.clock + 1, st.clock + 2⟩, none) := by
    unfold syncPackedRefs
    dsimp only
    rw [f3]
    dsimp only
    rw [if_neg (by omega : ¬(st.clock + 1 < st.clock))]
  have hcacheR := cacheOfRefs_spec M hMnd
  have hndR : ((cacheOfRefs M).map Prod.fst).Nodup := by
    rw [hcacheR, List.map_map]
    exact hMnd
  have hfilesR : filesOf esR [refsName] = [] := by
    rw [filesOf_shift esR [refsName], hesR]
    rfl
  have hndnR : ((filesOf esR [refsName]).map fun pc => joinPath pc.1).Nodup := by
    rw [hfilesR]
    simp
  have hRefsR := refs_run ⟨R, cacheOfRefs M, st.clock + 1, st.clock + 2⟩ esR
    hsyncR f5 hndnR hndR
  have hRefsSt := refs_run st es hsync hrefs hndn hndc
  refine ⟨_, hPR, ?_, ?_⟩
  · rw [hRefsR, hRefsSt]
    dsimp only
    rw [hfilesR]
    dsimp only [List.map_nil]
    rw [f4, List.nil_append, packedAdds_nil_seen, hcacheR, List.map_map]
    have hid : List.map (Prod.snd ∘ fun r => ((r.name, r) : String × Reference)) M
        = M := by
      induction M with
      | nil => rfl
      | cons a l ih => simp only [List.map_cons, ih]; rfl
    rw [hid, hM]
  · unfold CountLooseRefs addRefsFromRefDir
    dsimp only
    rw [f5]
    dsimp only
    rw [walkEntries_eq_pure, hfilesR]
    rfl

/-- Witness for C4: a state with one loose and one packed reference at which
the theorem's hypotheses hold and its conclusion follows. -/
theorem packRefs_preserves_witness :
    WfDotGit stC4w ∧ filesOf esC4w [refsName] ≠ [] ∧
    ∃ stR, PackRefs stC4w = (stR, none) ∧
      (Refs stR).2 = (Refs stC4w).2 ∧ CountLooseRefs stR = .ok 0 :=
  ⟨⟨by decide, by decide, by decide, by decide⟩,
   by simp [filesOf, esC4w],
   packRefs_preserves stC4w esC4w (hexC ++ " refs/tags/v1\n") 4
     ⟨by decide, by decide, by decide, by decide⟩
     (by decide) (by decide) (by decide)
     (by simp [filesOf, esC4w])⟩

end GitModel
